import Mathlib

/-!
# Verification of the ticket-normalization and KPI-aggregation core

Shallow embedding of the `noemora/reporting` repository's core:
text normalization (`utils/text_normalizer.py`), status taxonomy
normalization (`utils/dashboard_helpers.py`, `utils/dashboard_domain.py`),
the filter engine (`data/filter.py`), the aggregation engine
(`services/table_builder.py`, `services/kpi_calculator.py`) and the
monthly flow counts of `dashboard/orchestrator.py`.

Strings are modelled as Lean strings; the per-character Unicode
operations of Python (`str.lower`, `str.title`, NFKD decomposition,
combining-mark classes) are embedded by finite tables covering the
ASCII range and the Spanish accented characters this application
processes (the mojibake table, month names and status vocabularies);
characters outside the tables pass through unchanged.
-/

/-- Association-list lookup, first match wins (Python dict / pandas map). -/
def alookup [DecidableEq α] : List (α × β) → α → Option β
  | [], _ => none
  | (k, v) :: ps, a => if a = k then some v else alookup ps a

theorem alookup_mem [DecidableEq α] {ps : List (α × β)} {a : α} {b : β}
    (h : alookup ps a = some b) : (a, b) ∈ ps := by
  induction ps with
  | nil => simp [alookup] at h
  | cons p ps ih =>
    obtain ⟨k, v⟩ := p
    by_cases hk : a = k
    · simp [alookup, hk] at h
      simp [hk, h]
    · simp [alookup, hk] at h
      exact List.mem_cons_of_mem _ (ih h)

/-- Python whitespace characters relevant to `str.strip` / `str.split` / `\s`. -/
def wsChars : List Char := [' ', '\t', '\n', '\r', '\x0b', '\x0c']

def isWsChar (c : Char) : Bool := c ∈ wsChars

/-- `str.lower` table: ASCII upper range plus the accented uppercase letters
used by the application's vocabulary and mojibake table. -/
def lowerTable : List (Char × Char) :=
  [('A', 'a'), ('B', 'b'), ('C', 'c'), ('D', 'd'), ('E', 'e'), ('F', 'f'),
   ('G', 'g'), ('H', 'h'), ('I', 'i'), ('J', 'j'), ('K', 'k'), ('L', 'l'),
   ('M', 'm'), ('N', 'n'), ('O', 'o'), ('P', 'p'), ('Q', 'q'), ('R', 'r'),
   ('S', 's'), ('T', 't'), ('U', 'u'), ('V', 'v'), ('W', 'w'), ('X', 'x'),
   ('Y', 'y'), ('Z', 'z'),
   ('Á', 'á'), ('É', 'é'), ('Í', 'í'), ('Ó', 'ó'), ('Ú', 'ú'), ('Ñ', 'ñ'),
   ('Ü', 'ü'), ('Ã', 'ã')]

/-- `str.upper` / title-position table, inverse direction of `lowerTable`. -/
def upperTable : List (Char × Char) :=
  [('a', 'A'), ('b', 'B'), ('c', 'C'), ('d', 'D'), ('e', 'E'), ('f', 'F'),
   ('g', 'G'), ('h', 'H'), ('i', 'I'), ('j', 'J'), ('k', 'K'), ('l', 'L'),
   ('m', 'M'), ('n', 'N'), ('o', 'O'), ('p', 'P'), ('q', 'Q'), ('r', 'R'),
   ('s', 'S'), ('t', 'T'), ('u', 'U'), ('v', 'V'), ('w', 'W'), ('x', 'X'),
   ('y', 'Y'), ('z', 'Z'),
   ('á', 'Á'), ('é', 'É'), ('í', 'Í'), ('ó', 'Ó'), ('ú', 'Ú'), ('ñ', 'Ñ'),
   ('ü', 'Ü'), ('ã', 'Ã')]

/-- Diacritic-stripping table (NFKD base letter of each accented letter). -/
def deaccentTable : List (Char × Char) :=
  [('á', 'a'), ('é', 'e'), ('í', 'i'), ('ó', 'o'), ('ú', 'u'), ('ñ', 'n'),
   ('ü', 'u'), ('ã', 'a'),
   ('Á', 'A'), ('É', 'E'), ('Í', 'I'), ('Ó', 'O'), ('Ú', 'U'), ('Ñ', 'N'),
   ('Ü', 'U'), ('Ã', 'A')]

/-- Combining marks produced by the NFKD table below. -/
def combiningMarks : List Char := ['́', '̃', '̈']

/-- NFKD decomposition table for the accented letters of the modelled domain. -/
def nfkdTable : List (Char × List Char) :=
  [('á', ['a', '́']), ('é', ['e', '́']), ('í', ['i', '́']),
   ('ó', ['o', '́']), ('ú', ['u', '́']), ('ñ', ['n', '̃']),
   ('ü', ['u', '̈']), ('ã', ['a', '̃']),
   ('Á', ['A', '́']), ('É', ['E', '́']), ('Í', ['I', '́']),
   ('Ó', ['O', '́']), ('Ú', ['U', '́']), ('Ñ', ['N', '̃']),
   ('Ü', ['U', '̈']), ('Ã', ['A', '̃'])]

def pyLowerChar (c : Char) : Char := (alookup lowerTable c).getD c

def pyUpperChar (c : Char) : Char := (alookup upperTable c).getD c

def deaccentChar (c : Char) : Char := (alookup deaccentTable c).getD c

def nfkdChar (c : Char) : List Char := (alookup nfkdTable c).getD [c]

def combiningChar (c : Char) : Bool := c ∈ combiningMarks

/-- Cased characters for `str.title` word-boundary tracking. -/
def isCasedChar (c : Char) : Bool := c.isAlpha || (alookup deaccentTable c).isSome

/-- Leading-whitespace removal (half of `str.strip`). -/
def dropWs (l : List Char) : List Char := l.dropWhile isWsChar

/-- `str.strip`: whitespace removed from both ends. -/
def stripList (l : List Char) : List Char := (dropWs (dropWs l.reverse).reverse)

/-- `re.sub(r"\s+", " ", ·)`: each maximal whitespace run becomes one space. -/
def squeezeList : List Char → List Char
  | [] => []
  | c :: cs =>
    if isWsChar c then
      match cs.head? with
      | some d => if isWsChar d then squeezeList cs else ' ' :: squeezeList cs
      | none => ' ' :: squeezeList cs
    else c :: squeezeList cs

/-- Right fold for `str.split()`: first component is the word still being
built, second the completed words to the right. -/
def splitAux : List Char → List Char × List (List Char)
  | [] => ([], [])
  | c :: cs =>
    let p := splitAux cs
    if isWsChar c then ([], if p.1 = [] then p.2 else p.1 :: p.2)
    else (c :: p.1, p.2)

/-- `str.split()`: maximal whitespace-free words. -/
def splitWs (l : List Char) : List (List Char) :=
  let p := splitAux l
  if p.1 = [] then p.2 else p.1 :: p.2

/-- `" ".join(words)`. -/
def joinWords : List (List Char) → List Char
  | [] => []
  | [w] => w
  | w :: ws => w ++ ' ' :: joinWords ws

/-- `str.title`: uppercase a character not preceded by a cased character,
lowercase the rest.  The flag records whether the previous character was cased. -/
def titleChars : Bool → List Char → List Char
  | _, [] => []
  | prevCased, c :: cs =>
    (if prevCased then pyLowerChar c else pyUpperChar c) :: titleChars (isCasedChar c) cs

/-- `str.replace` for a two-character pattern replaced by one character,
left to right, non-overlapping. -/
def replacePair (a b rep : Char) : List Char → List Char
  | [] => []
  | [c] => [c]
  | c :: d :: rest =>
    if c = a ∧ d = b then rep :: replacePair a b rep rest
    else c :: replacePair a b rep (d :: rest)

/-- The mojibake repair table of `TextNormalizer.fix_mojibake`: each UTF-8
pair read as Latin-1 (first byte `Ã`, i.e. `\xc3`) and its repaired letter. -/
def fixSteps : List (Char × Char × Char) :=
  [('Ã', '¡', 'á'), ('Ã', '©', 'é'), ('Ã', '­', 'í'),
   ('Ã', '³', 'ó'), ('Ã', 'º', 'ú'), ('Ã', '±', 'ñ'),
   ('Ã', '\u0093', 'Ó'), ('Ã', '\u009a', 'Ú'), ('Ã', '\u0081', 'Á'),
   ('Ã', '\u0089', 'É'), ('Ã', '\u0091', 'Ñ')]

def fixList (l : List Char) : List Char :=
  fixSteps.foldl (fun acc s => replacePair s.1 s.2.1 s.2.2 acc) l

/-- Literal-word sequence matcher at the head of a list, with `\s*` between
consecutive words (used for the resolution-status regexes). -/
def matchHere : List (List Char) → List Char → Bool
  | [], _ => true
  | p :: ps, l => p.isPrefixOf l && matchHere ps ((l.drop p.length).dropWhile isWsChar)

/-- `re.search` of a `w1\s*w2\s*...` pattern anywhere in the list. -/
def containsParts (ps : List (List Char)) : List Char → Bool
  | [] => matchHere ps []
  | c :: cs => matchHere ps (c :: cs) || containsParts ps cs

/-- Plain substring containment (`str.contains` with a literal pattern). -/
def containsStr (s pat : String) : Bool := containsParts [pat.data] s.data

/-- `str.strip` on strings. -/
def stripS (s : String) : String := ⟨stripList s.data⟩

/-- `str.lower` on strings. -/
def pyLowerS (s : String) : String := ⟨s.data.map pyLowerChar⟩

/-- `str.title` on strings. -/
def titleS (s : String) : String := ⟨titleChars false s.data⟩

/-- `pandas astype(str)` on a nullable string cell: a missing value prints
as the literal placeholder. -/
def pyStr (o : Option String) : String := o.getD "<NA>"

/-- `TextNormalizer.fix_mojibake`: the eleven replacements applied in
dictionary order. -/
def fix_mojibake (s : String) : String := ⟨fixList s.data⟩

/-- Modelled from the spec: `TextNormalizer.remove_accents` is called six
times in the repository (`utils/dashboard_helpers.py`,
`dashboard/usage_renderer.py`, `dashboard/orchestrator.py`) but its
definition is missing from `src/utils/text_normalizer.py`; the spec
defines it as diacritic stripping that preserves case and spacing. -/
def remove_accents (s : String) : String := ⟨s.data.map deaccentChar⟩

/-- Keep alphanumeric characters, drop combining marks, replace everything
else by a space (the cleaning loop of `normalize_column_name`). -/
def cleanChar (c : Char) : Option Char :=
  if combiningChar c then none
  else if c.isAlphanum then some c
  else some ' '

/-- Character pipeline of `normalize_column_name` before the final
split/join: mojibake repair, strip, lower, NFKD with combining marks
dropped, non-alphanumerics to spaces. -/
def ncnCore (l : List Char) : List Char :=
  (((stripList (fixList l)).map pyLowerChar).flatMap nfkdChar).filterMap cleanChar

/-- `normalize_column_name` at the character-list level: the cleaning
pipeline followed by whitespace collapsing via split/join. -/
def ncnList (l : List Char) : List Char := joinWords (splitWs (ncnCore l))

/-- `TextNormalizer.normalize_column_name`: mojibake repair, strip, lower,
NFKD with combining marks dropped, non-alphanumerics to spaces, whitespace
collapsed by split/join. -/
def normalize_column_name (s : String) : String := ⟨ncnList s.data⟩

/-- `TextNormalizer.normalize_environment`: `str(value).strip().lower().replace("ó", "o")`. -/
def normalize_environment (o : Option String) : String :=
  ⟨(pyLowerS (stripS (pyStr o))).data.map (fun c => if c = 'ó' then 'o' else c)⟩

/-- `AppConfig.RESOLVED_STATES` (already lower case, so equal to the
normalized set built by `TicketStatusHelper.normalized_resolved_states`). -/
def RESOLVED_STATES : List String :=
  ["resuelto", "cerrado", "solucionado", "resueltos", "resolved", "closed"]

/-- `AppConfig.PROD_ENVIRONMENTS`. -/
def PROD_ENVIRONMENTS : List String :=
  ["prod (cliente)", "produccion", "produccion ", "prod"]

/-- `AppConfig.MONTH_NAMES_ES`. -/
def MONTH_NAMES_ES : List (Nat × String) :=
  [(1, "Enero"), (2, "Febrero"), (3, "Marzo"), (4, "Abril"), (5, "Mayo"),
   (6, "Junio"), (7, "Julio"), (8, "Agosto"), (9, "Septiembre"),
   (10, "Octubre"), (11, "Noviembre"), (12, "Diciembre")]

def digitChar10 (d : Nat) : Char :=
  match d with
  | 0 => '0' | 1 => '1' | 2 => '2' | 3 => '3' | 4 => '4'
  | 5 => '5' | 6 => '6' | 7 => '7' | 8 => '8' | _ => '9'

def natDigitsAux : Nat → Nat → List Char → List Char
  | 0, _, acc => acc
  | fuel + 1, n, acc =>
    if n < 10 then digitChar10 n :: acc
    else natDigitsAux fuel (n / 10) (digitChar10 (n % 10) :: acc)

/-- Decimal rendering of a natural number (`str(n)`). -/
def natRepr (n : Nat) : String := ⟨natDigitsAux (n + 1) n []⟩

def monthName (m : Nat) : String := (alookup MONTH_NAMES_ES m).getD (natRepr m)

def monthOrder : List Nat := [1, 2, 3, 4, 5, 6, 7, 8, 9, 10, 11, 12]

/-- The exact-match table of `normalize_estado_for_display`. -/
def estadoExactMap : List (String × String) :=
  [("pendiente", "Pendiente"), ("pending", "Pendiente"),
   ("abierto", "Abierto"), ("open", "Abierto"),
   ("nuevo", "Nuevo"), ("new", "Nuevo"),
   ("en progreso", "En progreso"), ("in progress", "En progreso"),
   ("en espera", "En espera"), ("on hold", "En espera"), ("hold", "En espera"),
   ("cancelado", "Cancelado"), ("cancelada", "Cancelado"),
   ("cancelled", "Cancelado"), ("canceled", "Cancelado"),
   ("reabierto", "Reabierto"), ("re-opened", "Reabierto"),
   ("reopened", "Reabierto")]

/-- The title-cased fallback of the status and resolution normalizers:
`fix_mojibake`, collapse whitespace, strip, title-case. -/
def displayFallback (raw : String) : String :=
  titleS ⟨stripList (squeezeList (fixList raw.data))⟩

/-- `TicketStatusHelper.normalize_estado_for_display`, per cell.  The input
is the nullable raw `Estado` value, the output the nullable display label. -/
def normalize_estado_for_display (estado : Option String) : Option String :=
  let raw := estado.map stripS
  let norm := pyLowerS (stripS (remove_accents (raw.getD "")))
  if norm ∈ RESOLVED_STATES then some "Resuelto"
  else match alookup estadoExactMap norm with
  | some v => some v
  | none =>
    if containsStr norm "progreso" || containsStr norm "progress" then some "En progreso"
    else if containsStr norm "espera" || containsStr norm "waiting" || containsStr norm "hold" then some "En espera"
    else if containsStr norm "pendient" || containsStr norm "pending" then some "Pendiente"
    else if containsStr norm "cancel" then some "Cancelado"
    else if containsStr norm "reabiert" || containsStr norm "reopen" then some "Reabierto"
    else match raw with
    | none => none
    | some r =>
      let fb := displayFallback r
      if fb = "" then none else some fb

/-- `TicketStatusHelper.normalize_resolution_status_for_display`, per cell. -/
def normalize_resolution_status_for_display (resolution : Option String) : String :=
  let raw := resolution.map stripS
  let norm := pyLowerS (stripS (remove_accents (raw.getD "")))
  if norm ∈ ["within sla", "cumplido", "en sla", "dentro de sla"] then "Cumplido"
  else if norm ∈ ["sla violated", "incumplido", "fuera de sla"] then "Incumplido"
  else if norm ∈ ["resuelto", "resolved", "solucionado", "cerrado", "closed"] then "Resuelto"
  else if containsParts ["within".data, "sla".data] norm.data
       || containsParts ["dentro".data, "de".data, "sla".data] norm.data then "Cumplido"
  else if containsStr norm "violat" || containsStr norm "incumpl"
       || containsParts ["fuera".data, "de".data, "sla".data] norm.data then "Incumplido"
  else match raw with
  | none => "Sin estado de resolución"
  | some r =>
    if r = "" then "Sin estado de resolución"
    else displayFallback r

/-- `TicketStatusHelper.build_resolved_mask`, per row: the grouped status
equals "resuelto" after strip/lower, or the raw resolution status is in the
resolved set after strip/lower. -/
def build_resolved_mask (estado estadoRes : Option String) : Bool :=
  pyLowerS (stripS (pyStr (normalize_estado_for_display estado))) = "resuelto"
  || pyLowerS (stripS (pyStr estadoRes)) ∈ RESOLVED_STATES

/-- `KPICalculator._build_resolved_mask`, per row: both fields compared
lower-cased only (no strip, no accent folding). -/
def kpi_build_resolved_mask (estado estadoRes : Option String) : Bool :=
  pyLowerS (pyStr estadoRes) ∈ RESOLVED_STATES
  || pyLowerS (pyStr estado) ∈ RESOLVED_STATES

/-- From the spec's words (for claim C4): the row's field "folds
accent- and case-insensitively into the configured resolved-state
synonym set". -/
def folds_resolved_spec (field : Option String) : Bool :=
  pyLowerS (stripS (remove_accents (field.getD ""))) ∈ RESOLVED_STATES

/-- `PRIORITY_LABEL_MAP` of `utils/dashboard_domain.py`. -/
def PRIORITY_LABEL_MAP : List (String × String) :=
  [("urgente", "Urgente"), ("urgent", "Urgente"),
   ("alta", "Alta"), ("high", "Alta"),
   ("media", "Media"), ("medium", "Media"),
   ("baja", "Baja"), ("low", "Baja")]

/-- `PRIORITY_ORDER_MAP` of `utils/dashboard_domain.py`. -/
def PRIORITY_ORDER_MAP : List (String × Nat) :=
  [("urgente", 0), ("urgent", 0), ("alta", 1), ("high", 1),
   ("media", 2), ("medium", 2), ("baja", 3), ("low", 3)]

/-- `normalize_priority_labels`, per cell: `astype(str).str.strip().str.lower()`
mapped through the label table, unmatched (including null) to "Sin criticidad". -/
def normalize_priority_labels (p : Option String) : String :=
  (alookup PRIORITY_LABEL_MAP (pyLowerS (stripS (pyStr p)))).getD "Sin criticidad"

/-- `map_priority_sort`, per cell. -/
def map_priority_sort (label : String) : Nat :=
  (alookup PRIORITY_ORDER_MAP (pyLowerS (stripS label))).getD 99

/-- Sort key of `build_priority_category_order`: numeric rank, ties broken
by the lower-cased label. -/
def prioRel (a b : String) : Prop :=
  map_priority_sort a < map_priority_sort b
  ∨ (map_priority_sort a = map_priority_sort b ∧ pyLowerS a ≤ pyLowerS b)

instance : DecidableRel prioRel := fun a b => by
  unfold prioRel; infer_instance

/-- `drop_duplicates` keeping the first occurrence, with the set of labels
already seen as accumulator. -/
def dedupFirstAux (seen : List String) : List String → List String
  | [] => []
  | x :: xs =>
    if x ∈ seen then dedupFirstAux seen xs
    else x :: dedupFirstAux (x :: seen) xs

def dedupFirst (l : List String) : List String := dedupFirstAux [] l

/-- `build_priority_category_order`: strip, drop duplicates, sort by
(rank, lower-cased label). -/
def build_priority_category_order (labels : List String) : List String :=
  List.insertionSort prioRel (dedupFirst (labels.map stripS))

/-- One enriched ticket record (the columns the core reads, by their
canonical names; timestamps are (year, month) pairs). -/
structure Row where
  tid : String
  mes : Option Nat
  anio : Option Int
  creacion : Option (Int × Nat)
  resolucion : Option (Int × Nat)
  estado : Option String
  estadoRes : Option String
  grupo : Option String
  team : Option String
  tipo : Option String
  ambiente : Option String
  modulo : Option String
  prioridad : Option String
deriving DecidableEq

/-- A record set: the set of column names actually present plus the rows. -/
structure DFrame where
  cols : List String
  rows : List Row
deriving DecidableEq

/-- The column set of a fully reconciled record set. -/
def STANDARD_COLUMNS : List String :=
  ["ID del ticket", "Mes", "Año", "Hora de creacion", "Hora de resolucion",
   "Estado", "Estado de resolucion", "Grupo", "Team Asignado", "Tipo",
   "Ambiente", "Modulo", "Prioridad"]

def mkDF (rows : List Row) : DFrame := ⟨STANDARD_COLUMNS, rows⟩

/-- The client argument of `DataFilter.filter_by_client`
(`Union[str, List[str]]`). -/
inductive ClientArg
  | single (s : String)
  | multi (l : List String)

/-- `DataFilter.filter_by_year`. -/
def filter_by_year (df : DFrame) (year : Option Int) : DFrame :=
  match year with
  | none => df
  | some y =>
    if "Año" ∈ df.cols then ⟨df.cols, df.rows.filter (fun r => r.anio = some y)⟩
    else df

/-- `DataFilter.filter_by_client`. -/
def filter_by_client (df : DFrame) (client : ClientArg) : DFrame :=
  if "Grupo" ∉ df.cols then df
  else match client with
  | ClientArg.multi l =>
    if l = [] then df
    else ⟨df.cols, df.rows.filter (fun r => match r.grupo with
      | some g => g ∈ l
      | none => false)⟩
  | ClientArg.single s =>
    if s = "" ∨ s = "Todos" then df
    else ⟨df.cols, df.rows.filter (fun r => r.grupo = some s)⟩

/-- `DataFilter.filter_by_team`. -/
def filter_by_team (df : DFrame) (team : List String) : DFrame :=
  if team = [] ∨ "Team Asignado" ∉ df.cols then df
  else ⟨df.cols, df.rows.filter (fun r => match r.team with
    | some t => t ∈ team
    | none => false)⟩

/-- `DataFilter.filter_by_types`. -/
def filter_by_types (df : DFrame) (types : List String) : DFrame :=
  if types = [] ∨ "Tipo" ∉ df.cols then df
  else ⟨df.cols, df.rows.filter (fun r => match r.tipo with
    | some t => t ∈ types
    | none => false)⟩

/-- `DataFilter.filter_production_environment`. -/
def filter_production_environment (df : DFrame) : DFrame :=
  if "Ambiente" ∉ df.cols then df
  else ⟨df.cols, df.rows.filter (fun r => normalize_environment r.ambiente ∈ PROD_ENVIRONMENTS)⟩

/-- `DataFilter.filter_resolved_by_year`: resolution timestamp parsed with
coercion, rows kept when its year equals the given year (nulls excluded). -/
def filter_resolved_by_year (df : DFrame) (year : Option Int) : DFrame :=
  match year with
  | none => df
  | some y =>
    if "Hora de resolucion" ∈ df.cols then
      ⟨df.cols, df.rows.filter (fun r => r.resolucion.map Prod.fst = some y)⟩
    else df

/-- Category label of a row after `fillna(fill_missing)`. -/
def rowCat (idx : Row → Option String) (fill : String) (r : Row) : String :=
  (idx r).getD fill

/-- Code-point lexicographic comparison of character lists (the string
order used by `sort_index`). -/
def listLexLe : List Char → List Char → Bool
  | [], _ => true
  | _ :: _, [] => false
  | a :: as, b :: bs =>
    if a = b then listLexLe as bs else decide (a.toNat < b.toNat)

def strLe (a b : String) : Prop := listLexLe a.data b.data = true

instance : DecidableRel strLe := fun a b => by unfold strLe; infer_instance

/-- The distinct category values of the pivot: rows whose month is non-null
(the pivot groupby drops null month keys). -/
def pivotCatList (idx : Row → Option String) (fill : String) (rows : List Row) : List String :=
  ((rows.filter (fun r => r.mes.isSome)).map (rowCat idx fill)).dedup

/-- Sorted row labels of the pivot (`sort_index`). -/
def pivotRowLabels (idx : Row → Option String) (fill : String) (rows : List Row) : List String :=
  List.insertionSort strLe (pivotCatList idx fill rows)

/-- Distinct ticket ids in one (category, month) cell. -/
def cellTids (idx : Row → Option String) (fill : String) (rows : List Row)
    (c : String) (m : Nat) : Finset String :=
  ((rows.filter (fun r => rowCat idx fill r = c ∧ r.mes = some m)).map Row.tid).toFinset

/-- `aggfunc="nunique"` cell value. -/
def pivotCellCount (idx : Row → Option String) (fill : String) (rows : List Row)
    (c : String) (m : Nat) : Nat :=
  (cellTids idx fill rows c m).card

/-- Row sum over the twelve month columns (the "Total" column). -/
def pivotRowTotal (idx : Row → Option String) (fill : String) (rows : List Row)
    (c : String) : Nat :=
  (monthOrder.map (pivotCellCount idx fill rows c)).sum

/-- The data rows of the pivot: one per sorted category, twelve month cells
plus the Total column. -/
def pivotBody (idx : Row → Option String) (fill : String) (rows : List Row) :
    List (String × List Nat) :=
  (pivotRowLabels idx fill rows).map (fun c =>
    (c, monthOrder.map (pivotCellCount idx fill rows c) ++ [pivotRowTotal idx fill rows c]))

/-- `pivot.sum(axis=0)`: per-column sums over the data rows, the Total
column's sum last (the grand total). -/
def pivotTotalRow (idx : Row → Option String) (fill : String) (rows : List Row) : List Nat :=
  monthOrder.map (fun m => ((pivotRowLabels idx fill rows).map
      (fun c => pivotCellCount idx fill rows c m)).sum)
    ++ [((pivotRowLabels idx fill rows).map (fun c => pivotRowTotal idx fill rows c)).sum]

/-- Column labels after renaming: Spanish month names plus "Total". -/
def pivotColLabels : List String := monthOrder.map monthName ++ ["Total"]

/-- `TableBuilder.build_pivot_table`: the body with the Total row assigned
via `loc["Total"]`, which overwrites an existing row of that label and
appends otherwise. -/
def build_pivot_table (idx : Row → Option String) (fill : String) (rows : List Row) :
    List (String × List Nat) :=
  let body := pivotBody idx fill rows
  let total := pivotTotalRow idx fill rows
  if "Total" ∈ pivotRowLabels idx fill rows then
    body.map (fun p => if p.1 = "Total" then ("Total", total) else p)
  else body ++ [("Total", total)]

/-- A pivot as consumed by `add_sla_percentage_row`: column labels and
labelled numeric rows, cell lists aligned with the column labels. -/
structure SlaPivot where
  cols : List String
  rows : List (String × List Nat)

/-- `f"{value * 100:.1f}%"` on an exact rational value. -/
def fmtPct (q : ℚ) : String :=
  let n := (round (q * 1000) : ℤ).toNat
  natRepr (n / 10) ++ "." ++ natRepr (n % 10) ++ "%"

/-- Row-label test for the violated bucket (`incumpl`, `sla`+`violat`,
`no cumplido`, case-insensitive). -/
def violatedLabel (lbl : String) : Bool :=
  let l := pyLowerS lbl
  containsStr l "incumpl" || (containsStr l "sla" && containsStr l "violat")
    || containsStr l "no cumplido"

/-- Row-label test for the compliant bucket (`cumplido` without `no`/`in`,
or `within`). -/
def withinLabel (lbl : String) : Bool :=
  let l := pyLowerS lbl
  (containsStr l "cumplido" && !containsStr l "no" && !containsStr l "in")
    || containsStr l "within"

/-- The data rows: every row labelled "Total" dropped. -/
def slaDataRows (p : SlaPivot) : List (String × List Nat) :=
  p.rows.filter (fun r => r.1 ≠ "Total")

/-- Month columns: all columns except "Total". -/
def slaMonthCols (p : SlaPivot) : List String :=
  p.cols.filter (fun c => c ≠ "Total")

/-- A row's values restricted to the month columns. -/
def monthVals (cols : List String) (vs : List Nat) : List Nat :=
  ((cols.zip vs).filter (fun pr => pr.1 ≠ "Total")).map Prod.snd

/-- The violated row of the pivot (first matching row, else zeros). -/
def violatedVals (p : SlaPivot) : List Nat :=
  match (slaDataRows p).find? (fun r => violatedLabel r.1) with
  | some r => monthVals p.cols r.2
  | none => (slaMonthCols p).map (fun _ => 0)

/-- The compliant row of the pivot (first matching row, else zeros). -/
def withinVals (p : SlaPivot) : List Nat :=
  match (slaDataRows p).find? (fun r => withinLabel r.1) with
  | some r => monthVals p.cols r.2
  | none => (slaMonthCols p).map (fun _ => 0)

/-- The appended "% Fuera de SLA" values: per month column
violated / compliant with a zero denominator rendered "0.0%", then the
overall ratio of the two row sums (zero when the compliant sum is zero). -/
def sla_percent_values (p : SlaPivot) : List String :=
  let v := violatedVals p
  let w := withinVals p
  let per := (v.zip w).map (fun pr =>
    if pr.2 = 0 then "0.0%" else fmtPct ((pr.1 : ℚ) / (pr.2 : ℚ)))
  let tw := w.sum
  per ++ [fmtPct (if tw = 0 then 0 else (v.sum : ℚ) / (tw : ℚ))]

/-- `TableBuilder.add_sla_percentage_row`: the pivot is copied unchanged and
the percentage row is appended under the label "% Fuera de SLA". -/
def add_sla_percentage_row (p : SlaPivot) : SlaPivot × (String × List String) :=
  (p, ("% Fuera de SLA", sla_percent_values p))

/-- Distinct ticket count of a row list. -/
def distinctTids (rows : List Row) : Nat := (rows.map Row.tid).toFinset.card

/-- `DashboardOrchestrator._build_estado_grouped`, per cell: the stripped
status, with the configured resolved states (compared lower-cased) grouped
into "Resuelto" and blanks and nulls masked to NA; unlike the display
normalizer there is no accent folding and no exact-map or substring
cascade. -/
def orch_estado_grouped (estado : Option String) : Option String :=
  match estado with
  | none => none
  | some s =>
    if pyLowerS (stripS s) ∈ RESOLVED_STATES then some "Resuelto"
    else if stripS s = "" then none
    else some (stripS s)

/-- `DashboardOrchestrator._build_resolved_mask`, per row: the grouped
status equals "resuelto" after strip/lower, or the raw resolution status is
in the resolved set after strip/lower. -/
def orch_build_resolved_mask (estado estadoRes : Option String) : Bool :=
  pyLowerS (stripS (pyStr (orch_estado_grouped estado))) = "resuelto"
  || pyLowerS (stripS (pyStr estadoRes)) ∈ RESOLVED_STATES

/-- The "created" cell of `DashboardOrchestrator._render_incidents_table`:
year filter on "Año", production filter, creation nulls dropped, distinct
tickets grouped by creation month. -/
def created_flow_count (df : DFrame) (year : Int) (m : Nat) : Nat :=
  let prod := filter_production_environment (filter_by_year df (some year))
  distinctTids ((prod.rows.filter (fun r => r.creacion.isSome)).filter
    (fun r => r.creacion.map Prod.snd = some m))

/-- The "resolved" cell of `DashboardOrchestrator._render_incidents_table`:
resolution-year filter, production filter, the orchestrator's own resolved
mask (`self._build_resolved_mask`), distinct tickets grouped by resolution
month. -/
def resolved_flow_count (df : DFrame) (year : Int) (m : Nat) : Nat :=
  let prod := filter_production_environment (filter_resolved_by_year df (some year))
  distinctTids ((prod.rows.filter (fun r => orch_build_resolved_mask r.estado r.estadoRes)).filter
    (fun r => r.resolucion.map Prod.snd = some m))

/-- Sample rows for the concrete witnesses. -/
def rowA : Row :=
  ⟨"A", some 1, some 2024, some (2024, 1), some (2024, 1), some "Resuelto",
   some "Within SLA", some "Acme", some "Soporte", some "Incidente",
   some "Produccion", some "Billing", some "Alta"⟩

def rowB : Row :=
  ⟨"B", some 1, some 2024, some (2024, 1), none, some "Pendiente", none,
   some "Acme", some "Soporte", some "Consulta", some "Produccion",
   some "Billing", some "Media"⟩

theorem filter_by_year_none (df : DFrame) : filter_by_year df none = df := rfl

theorem filter_by_client_empty_list (df : DFrame) :
    filter_by_client df (ClientArg.multi []) = df := by
  by_cases h : "Grupo" ∈ df.cols <;> simp [filter_by_client, h]

theorem filter_by_client_todos (df : DFrame) :
    filter_by_client df (ClientArg.single "Todos") = df := by
  by_cases h : "Grupo" ∈ df.cols <;> simp [filter_by_client, h]

theorem filter_by_team_empty (df : DFrame) : filter_by_team df [] = df := by
  simp [filter_by_team]

theorem filter_by_types_empty (df : DFrame) : filter_by_types df [] = df := by
  simp [filter_by_types]

/-- C8: each of `filter_by_client` with an empty list, `filter_by_client`
with "Todos", `filter_by_team` with an empty list, `filter_by_types` with
an empty list and `filter_by_year` with None returns the record set
unchanged. -/
theorem claim_C8_filter_noop (df : DFrame) :
    filter_by_client df (ClientArg.multi []) = df
    ∧ filter_by_client df (ClientArg.single "Todos") = df
    ∧ filter_by_team df [] = df
    ∧ filter_by_types df [] = df
    ∧ filter_by_year df none = df :=
  ⟨filter_by_client_empty_list df, filter_by_client_todos df,
   filter_by_team_empty df, filter_by_types_empty df, filter_by_year_none df⟩

/-- C10: every filter whose column is absent from the record set returns the
record set unchanged, even with a non-empty filter argument. -/
theorem claim_C10_missing_column (df : DFrame) (year : Int) (c : ClientArg)
    (teams types : List String) :
    ("Año" ∉ df.cols → filter_by_year df (some year) = df)
    ∧ ("Grupo" ∉ df.cols → filter_by_client df c = df)
    ∧ ("Team Asignado" ∉ df.cols → filter_by_team df teams = df)
    ∧ ("Tipo" ∉ df.cols → filter_by_types df types = df)
    ∧ ("Ambiente" ∉ df.cols → filter_production_environment df = df)
    ∧ ("Hora de resolucion" ∉ df.cols → filter_resolved_by_year df (some year) = df) := by
  refine ⟨fun h => ?_, fun h => ?_, fun h => ?_, fun h => ?_, fun h => ?_, fun h => ?_⟩
  · simp [filter_by_year, h]
  · cases c <;> simp [filter_by_client, h]
  · simp [filter_by_team, h]
  · simp [filter_by_types, h]
  · simp [filter_production_environment, h]
  · simp [filter_resolved_by_year, h]

/-- Witness for C10 at a record set missing every filtered column, with
non-empty filter arguments. -/
theorem claim_C10_missing_column_witness :
    filter_by_year ⟨["Asunto"], [rowA]⟩ (some 2024) = ⟨["Asunto"], [rowA]⟩
    ∧ filter_by_client ⟨["Asunto"], [rowA]⟩ (ClientArg.single "Acme") = ⟨["Asunto"], [rowA]⟩
    ∧ filter_by_team ⟨["Asunto"], [rowA]⟩ ["Soporte"] = ⟨["Asunto"], [rowA]⟩
    ∧ filter_by_types ⟨["Asunto"], [rowA]⟩ ["Incidente"] = ⟨["Asunto"], [rowA]⟩
    ∧ filter_production_environment ⟨["Asunto"], [rowA]⟩ = ⟨["Asunto"], [rowA]⟩
    ∧ filter_resolved_by_year ⟨["Asunto"], [rowA]⟩ (some 2024) = ⟨["Asunto"], [rowA]⟩ := by
  have h := claim_C10_missing_column ⟨["Asunto"], [rowA]⟩ 2024
    (ClientArg.single "Acme") ["Soporte"] ["Incidente"]
  exact ⟨h.1 (by decide), h.2.1 (by decide), h.2.2.1 (by decide),
    h.2.2.2.1 (by decide), h.2.2.2.2.1 (by decide), h.2.2.2.2.2 (by decide)⟩

theorem monthVals_append (months : List String) (vs : List Nat) (x : Nat)
    (hlen : months.length = vs.length) (hT : "Total" ∉ months) :
    monthVals (months ++ ["Total"]) (vs ++ [x]) = vs := by
  unfold monthVals
  rw [List.zip_append hlen, List.filter_append]
  have h1 : (months.zip vs).filter (fun pr => pr.1 ≠ "Total") = months.zip vs := by
    apply List.filter_eq_self.mpr
    intro a ha
    have hm := (List.of_mem_zip ha).1
    have : a.1 ≠ "Total" := fun h => hT (h ▸ hm)
    simpa using this
  have h2 : (["Total"].zip [x]).filter (fun pr : String × Nat => pr.1 ≠ "Total") = [] := by
    simp
  rw [h1, h2, List.append_nil]
  exact List.map_snd_zip months vs (le_of_eq hlen.symm)

theorem fmtPct_zero : fmtPct 0 = "0.0%" := by
  have h : round ((0 : ℚ) * 1000) = 0 := by norm_num
  simp only [fmtPct, h]
  decide

theorem slaViolated_pick (cols : List String) (cs vs tvs : List Nat) :
    violatedVals ⟨cols, [("Cumplido", cs), ("Incumplido", vs), ("Total", tvs)]⟩
      = monthVals cols vs := by
  have h1 : violatedLabel "Cumplido" = false := by decide
  have h2 : violatedLabel "Incumplido" = true := by decide
  simp [violatedVals, slaDataRows, List.find?, h1, h2]

theorem slaWithin_pick (cols : List String) (cs vs tvs : List Nat) :
    withinVals ⟨cols, [("Cumplido", cs), ("Incumplido", vs), ("Total", tvs)]⟩
      = monthVals cols cs := by
  have h1 : withinLabel "Cumplido" = true := by decide
  simp [withinVals, slaDataRows, List.find?, h1]

/-- On a resolution pivot of canonical shape (month columns plus Total,
a "Cumplido" row, an "Incumplido" row and a Total row), the appended SLA
row is violated-over-compliant per month, "0.0%" on a zero compliant
denominator, with a trailing overall ratio of the row sums. -/
theorem sla_canonical (months : List String) (cs vs tvs : List Nat)
    (hc : months.length = cs.length) (hv : months.length = vs.length)
    (hT : "Total" ∉ months) :
    sla_percent_values ⟨months ++ ["Total"],
        [("Cumplido", cs ++ [cs.sum]), ("Incumplido", vs ++ [vs.sum]), ("Total", tvs)]⟩
      = (vs.zip cs).map (fun pr =>
          if pr.2 = 0 then "0.0%" else fmtPct ((pr.1 : ℚ) / (pr.2 : ℚ)))
        ++ [if cs.sum = 0 then "0.0%" else fmtPct ((vs.sum : ℚ) / (cs.sum : ℚ))] := by
  unfold sla_percent_values
  rw [slaViolated_pick, slaWithin_pick, monthVals_append months vs vs.sum hv hT,
    monthVals_append months cs cs.sum hc hT]
  by_cases hsum : cs.sum = 0
  · simp [hsum, fmtPct_zero]
  · simp [hsum]

theorem fmtPct_fifth : fmtPct ((1 : ℚ) / 5) = "20.0%" := by
  have h : round (((1 : ℚ) / 5) * 1000) = 200 := by norm_num [round_eq]
  simp only [fmtPct, h]
  decide

theorem fmtPct_seven_tenths : fmtPct ((7 : ℚ) / 10) = "70.0%" := by
  have h : round (((7 : ℚ) / 10) * 1000) = 700 := by norm_num [round_eq]
  simp only [fmtPct, h]
  decide

/-- C1: `add_sla_percentage_row` appends a "% Fuera de SLA" row computing,
per month column, violated over compliant (never violated over total),
formatted at one decimal, "0.0%" on a zero compliant denominator, with a
trailing overall ratio of the two row sums; on the pivot with a "Cumplido"
row of (10, 0) and an "Incumplido" row of (2, 5) the appended row reads
"20.0%", "0.0%" and an overall "70.0%". -/
theorem claim_C1_sla_percentage (months : List String) (cs vs tvs : List Nat)
    (hc : months.length = cs.length) (hv : months.length = vs.length)
    (hT : "Total" ∉ months) :
    sla_percent_values ⟨months ++ ["Total"],
        [("Cumplido", cs ++ [cs.sum]), ("Incumplido", vs ++ [vs.sum]), ("Total", tvs)]⟩
      = (vs.zip cs).map (fun pr =>
          if pr.2 = 0 then "0.0%" else fmtPct ((pr.1 : ℚ) / (pr.2 : ℚ)))
        ++ [if cs.sum = 0 then "0.0%" else fmtPct ((vs.sum : ℚ) / (cs.sum : ℚ))]
    ∧ (∀ p : SlaPivot, add_sla_percentage_row p
        = (p, ("% Fuera de SLA", sla_percent_values p)))
    ∧ sla_percent_values ⟨["Enero", "Febrero", "Total"],
        [("Cumplido", [10, 0, 10]), ("Incumplido", [2, 5, 7]), ("Total", [12, 5, 17])]⟩
      = ["20.0%", "0.0%", "70.0%"] := by
  refine ⟨sla_canonical months cs vs tvs hc hv hT, fun p => rfl, ?_⟩
  have h := sla_canonical ["Enero", "Febrero"] [10, 0] [2, 5] [12, 5, 17]
    (by decide) (by decide) (by decide)
  simp only [List.sum_cons, List.sum_nil] at h
  rw [show (10 + (0 + 0) : ℕ) = 10 from rfl, show (2 + (5 + 0) : ℕ) = 7 from rfl] at h
  rw [show (["Enero", "Febrero"] ++ ["Total"] : List String)
      = ["Enero", "Febrero", "Total"] from rfl,
    show ([10, 0] ++ [10] : List ℕ) = [10, 0, 10] from rfl,
    show ([2, 5] ++ [7] : List ℕ) = [2, 5, 7] from rfl] at h
  rw [h]
  simp only [List.zip_cons_cons, List.zip_nil_right, List.map_cons, List.map_nil]
  norm_num
  exact ⟨fmtPct_fifth, fmtPct_seven_tenths⟩

/-- Witness for C1: the canonical-shape statement applied at the spec's
example pivot. -/
theorem claim_C1_sla_percentage_witness :
    sla_percent_values ⟨["Enero", "Febrero", "Total"],
        [("Cumplido", [10, 0, 10]), ("Incumplido", [2, 5, 7]), ("Total", [12, 5, 17])]⟩
      = ["20.0%", "0.0%", "70.0%"] :=
  (claim_C1_sla_percentage ["Enero", "Febrero"] [10, 0] [2, 5] [12, 5, 17]
    (by decide) (by decide) (by decide)).2.2

theorem toFinset_filter_map_append (rows : List Row) (r : Row) (P : Row → Bool)
    (f : Row → String) (h : r ∈ rows) :
    (((rows ++ [r]).filter P).map f).toFinset = ((rows.filter P).map f).toFinset := by
  rw [List.filter_append, List.map_append, List.toFinset_append]
  by_cases hp : P r
  · have hr : f r ∈ ((rows.filter P).map f).toFinset := by
      rw [List.mem_toFinset]
      exact List.mem_map_of_mem f (List.mem_filter.mpr ⟨h, hp⟩)
    have hs : (List.map f ([r].filter P)).toFinset = {f r} := by
      simp [List.filter_singleton, hp]
    rw [hs, Finset.union_comm]
    exact Finset.union_eq_right.mpr (Finset.singleton_subset_iff.mpr hr)
  · have hs : (List.map f ([r].filter P)).toFinset = ∅ := by
      simp [List.filter_singleton, hp]
    rw [hs, Finset.union_empty]

theorem pivotCellCount_dup (idx : Row → Option String) (fill : String)
    (rows : List Row) (r : Row) (h : r ∈ rows) :
    pivotCellCount idx fill (rows ++ [r]) = pivotCellCount idx fill rows := by
  funext c m
  unfold pivotCellCount cellTids
  exact congrArg Finset.card
    (toFinset_filter_map_append rows r _ Row.tid h)

theorem listLexLe_total : ∀ a b : List Char, listLexLe a b = true ∨ listLexLe b a = true := by
  intro a
  induction a with
  | nil => intro b; left; rfl
  | cons x as ih =>
    intro b
    cases b with
    | nil => right; rfl
    | cons y bs =>
      by_cases hxy : x = y
      · subst hxy
        rcases ih bs with h | h
        · left; simpa [listLexLe] using h
        · right; simpa [listLexLe] using h
      · have hne : x.toNat ≠ y.toNat := fun hn => hxy (Char.ext (UInt32.ext hn))
        rcases Nat.lt_or_ge x.toNat y.toNat with h | h
        · left; simp [listLexLe, hxy, h]
        · right
          have hlt : y.toNat < x.toNat := by omega
          simp [listLexLe, Ne.symm hxy, hlt]

theorem listLexLe_trans : ∀ a b c : List Char,
    listLexLe a b = true → listLexLe b c = true → listLexLe a c = true := by
  intro a
  induction a with
  | nil => intro b c _ _; rfl
  | cons x as ih =>
    intro b c hab hbc
    cases b with
    | nil => simp [listLexLe] at hab
    | cons y bs =>
      cases c with
      | nil => simp [listLexLe] at hbc
      | cons z cs =>
        by_cases hxy : x = y <;> by_cases hyz : y = z
        · subst hxy; subst hyz
          simp only [listLexLe, if_pos rfl] at hab hbc ⊢
          exact ih bs cs hab hbc
        · subst hxy
          simp only [listLexLe, if_neg hyz] at hbc ⊢
          exact hbc
        · subst hyz
          simp only [listLexLe, if_neg hxy] at hab ⊢
          exact hab
        · simp only [listLexLe, if_neg hxy, if_neg hyz, decide_eq_true_eq] at hab hbc
          have hxz : x.toNat < z.toNat := lt_trans hab hbc
          have hne : x ≠ z := fun he => by subst he; exact absurd hxz (by omega)
          simp [listLexLe, hne, hxz]

theorem listLexLe_antisymm : ∀ a b : List Char,
    listLexLe a b = true → listLexLe b a = true → a = b := by
  intro a
  induction a with
  | nil =>
    intro b _ hba
    cases b with
    | nil => rfl
    | cons y bs => simp [listLexLe] at hba
  | cons x as ih =>
    intro b hab hba
    cases b with
    | nil => simp [listLexLe] at hab
    | cons y bs =>
      by_cases hxy : x = y
      · subst hxy
        simp only [listLexLe, if_pos rfl] at hab hba
        exact congrArg (x :: ·) (ih bs hab hba)
      · simp only [listLexLe, if_neg hxy, if_neg (Ne.symm hxy), decide_eq_true_eq] at hab hba
        omega

instance : IsTotal String strLe :=
  ⟨fun a b => listLexLe_total a.data b.data⟩

instance : IsTrans String strLe :=
  ⟨fun a b c => listLexLe_trans a.data b.data c.data⟩

instance : IsAntisymm String strLe :=
  ⟨fun a b hab hba => by
    cases a; cases b
    exact congrArg String.mk (listLexLe_antisymm _ _ hab hba)⟩

theorem pivotCatList_dup (idx : Row → Option String) (fill : String)
    (rows : List Row) (r : Row) (h : r ∈ rows) :
    pivotRowLabels idx fill (rows ++ [r]) = pivotRowLabels idx fill rows := by
  have hfin := toFinset_filter_map_append rows r (fun r => r.mes.isSome) (rowCat idx fill) h
  have hfin2 : (pivotCatList idx fill (rows ++ [r])).toFinset
      = (pivotCatList idx fill rows).toFinset := by
    ext a
    have := Finset.ext_iff.mp hfin a
    simpa [pivotCatList, List.mem_toFinset, List.mem_dedup] using this
  have hperm := List.perm_of_nodup_nodup_toFinset_eq
    (List.nodup_dedup _) (List.nodup_dedup _) hfin2
  exact List.eq_of_perm_of_sorted
    ((List.perm_insertionSort strLe _).trans
      (hperm.trans (List.perm_insertionSort strLe _).symm))
    (List.sorted_insertionSort strLe _) (List.sorted_insertionSort strLe _)

/-- C3: appending an exact duplicate of an existing row leaves the whole
monthly category pivot unchanged (counts are distinct ticket ids). -/
theorem claim_C3_duplicate_row (idx : Row → Option String) (fill : String)
    (rows : List Row) (r : Row) (h : r ∈ rows) :
    build_pivot_table idx fill (rows ++ [r]) = build_pivot_table idx fill rows := by
  have hfun := pivotCellCount_dup idx fill rows r h
  have hlab := pivotCatList_dup idx fill rows r h
  unfold build_pivot_table pivotBody pivotTotalRow pivotRowTotal
  rw [hlab, hfun]

/-- Witness for C3: duplicating a concrete row of a two-row record set. -/
theorem claim_C3_duplicate_row_witness :
    build_pivot_table Row.modulo "Sin valor" ([rowA, rowB] ++ [rowA])
      = build_pivot_table Row.modulo "Sin valor" [rowA, rowB] :=
  claim_C3_duplicate_row Row.modulo "Sin valor" [rowA, rowB] rowA (by decide)

theorem sum_map_add {α : Type} (l : List α) (f g : α → Nat) :
    (l.map (fun x => f x + g x)).sum = (l.map f).sum + (l.map g).sum := by
  induction l with
  | nil => simp
  | cons x xs ih => simp [ih]; omega

theorem sum_map_swap (ls : List String) (ms : List Nat) (f : String → Nat → Nat) :
    (ms.map (fun m => (ls.map (fun c => f c m)).sum)).sum
      = (ls.map (fun c => (ms.map (f c)).sum)).sum := by
  induction ls with
  | nil => simp
  | cons c cs ih =>
    simp only [List.map_cons, List.sum_cons]
    rw [show (fun m => f c m + (cs.map (fun c' => f c' m)).sum)
        = (fun m => f c m + (fun m' => (cs.map (fun c' => f c' m')).sum) m) from rfl]
    rw [sum_map_add ms (f c) (fun m' => (cs.map (fun c' => f c' m')).sum), ih]

theorem pivot_no_total_label (idx : Row → Option String) (fill : String)
    (rows : List Row) (h : ∀ r ∈ rows, rowCat idx fill r ≠ "Total") :
    "Total" ∉ pivotRowLabels idx fill rows := by
  intro hmem
  have h1 : "Total" ∈ pivotCatList idx fill rows :=
    ((List.perm_insertionSort strLe _).mem_iff).mp hmem
  rw [pivotCatList, List.mem_dedup] at h1
  obtain ⟨r, hr, hrc⟩ := List.mem_map.mp h1
  exact h r (List.mem_filter.mp hr).1 hrc

/-- C2 (amended): when no category label equals the literal "Total", the
pivot is the per-category body followed by a trailing "Total" row; the
column labels are the twelve Spanish month names in calendar order plus
"Total"; every row has twelve month cells and a final cell equal to their
sum; the Total row carries the per-column sums over the data rows, its
final cell the grand total; a zero-row input still yields the full-shape
zero table. -/
theorem claim_C2_pivot_shape (idx : Row → Option String) (fill : String)
    (rows : List Row) (h : ∀ r ∈ rows, rowCat idx fill r ≠ "Total") :
    build_pivot_table idx fill rows
      = pivotBody idx fill rows ++ [("Total", pivotTotalRow idx fill rows)]
    ∧ pivotColLabels
      = ["Enero", "Febrero", "Marzo", "Abril", "Mayo", "Junio", "Julio",
         "Agosto", "Septiembre", "Octubre", "Noviembre", "Diciembre", "Total"]
    ∧ (∀ p ∈ build_pivot_table idx fill rows,
        ∃ ms tot, p.2 = ms ++ [tot] ∧ ms.length = 12 ∧ tot = ms.sum)
    ∧ (∀ j, j < 12 → (pivotTotalRow idx fill rows).getD j 0
        = ((pivotBody idx fill rows).map (fun p => p.2.getD j 0)).sum)
    ∧ (pivotTotalRow idx fill rows).getD 12 0
        = ((pivotBody idx fill rows).map (fun p => p.2.getD 12 0)).sum
    ∧ build_pivot_table idx fill []
      = [("Total", [0, 0, 0, 0, 0, 0, 0, 0, 0, 0, 0, 0, 0])] := by
  have hT := pivot_no_total_label idx fill rows h
  have hbuild : build_pivot_table idx fill rows
      = pivotBody idx fill rows ++ [("Total", pivotTotalRow idx fill rows)] := by
    unfold build_pivot_table
    rw [if_neg hT]
  refine ⟨hbuild, rfl, ?_, ?_, ?_, rfl⟩
  · intro p hp
    rw [hbuild] at hp
    rcases List.mem_append.mp hp with hp | hp
    · obtain ⟨c, _, rfl⟩ := List.mem_map.mp hp
      exact ⟨monthOrder.map (pivotCellCount idx fill rows c),
        pivotRowTotal idx fill rows c, rfl, by simp [monthOrder], rfl⟩
    · rw [List.mem_singleton] at hp
      subst hp
      refine ⟨monthOrder.map (fun m => ((pivotRowLabels idx fill rows).map
          (fun c => pivotCellCount idx fill rows c m)).sum),
        ((pivotRowLabels idx fill rows).map
          (fun c => pivotRowTotal idx fill rows c)).sum, rfl, by simp [monthOrder], ?_⟩
      exact (sum_map_swap (pivotRowLabels idx fill rows) monthOrder
        (pivotCellCount idx fill rows)).symm
  · intro j hj
    unfold pivotBody pivotTotalRow
    rw [List.map_map]
    interval_cases j <;> rfl
  · unfold pivotBody pivotTotalRow
    rw [List.map_map]
    rfl

/-- A row whose category value is the literal "Total". -/
def rowT : Row :=
  ⟨"T1", some 1, some 2024, some (2024, 1), none, none, none, none, none, none,
   none, some "Total", none⟩

/-- Counterexample for C2 as stated: on a record set with a category
literally named "Total", the `loc["Total"]` assignment overwrites that
category's row in place, so the table has a single row instead of the
claimed data row plus trailing Total row. -/
theorem claim_C2_counterexample :
    build_pivot_table Row.modulo "Sin valor" [rowT]
      = [("Total", [1, 0, 0, 0, 0, 0, 0, 0, 0, 0, 0, 0, 1])]
    ∧ pivotRowLabels Row.modulo "Sin valor" [rowT] = ["Total"]
    ∧ (build_pivot_table Row.modulo "Sin valor" [rowT]).length = 1 := by
  refine ⟨by decide, by decide, by decide⟩

/-- Witness for C2 at a concrete two-row record set. -/
theorem claim_C2_pivot_shape_witness :
    build_pivot_table Row.modulo "Sin valor" [rowA, rowB]
      = pivotBody Row.modulo "Sin valor" [rowA, rowB]
        ++ [("Total", pivotTotalRow Row.modulo "Sin valor" [rowA, rowB])]
    ∧ build_pivot_table Row.modulo "Sin valor" []
      = [("Total", [0, 0, 0, 0, 0, 0, 0, 0, 0, 0, 0, 0, 0])] := by
  have h := claim_C2_pivot_shape Row.modulo "Sin valor" [rowA, rowB] (by decide)
  exact ⟨h.1, h.2.2.2.2.2⟩

theorem alookup_eq_none [DecidableEq α] {ps : List (α × β)} {a : α}
    (h : ∀ p ∈ ps, a ≠ p.1) : alookup ps a = none := by
  induction ps with
  | nil => rfl
  | cons p ps ih =>
    obtain ⟨k, v⟩ := p
    rw [alookup, if_neg (h (k, v) (List.mem_cons_self _ _))]
    exact ih fun q hq => h q (List.mem_cons_of_mem _ hq)

theorem mem_dedupFirstAux (x : String) :
    ∀ (l seen : List String), x ∈ dedupFirstAux seen l ↔ x ∈ l ∧ x ∉ seen := by
  intro l
  induction l with
  | nil => intro seen; simp [dedupFirstAux]
  | cons y ys ih =>
    intro seen
    by_cases hy : y ∈ seen
    · rw [dedupFirstAux, if_pos hy, ih seen]
      constructor
      · rintro ⟨h1, h2⟩
        exact ⟨List.mem_cons_of_mem _ h1, h2⟩
      · rintro ⟨h1, h2⟩
        rcases List.mem_cons.mp h1 with rfl | h1
        · exact absurd hy h2
        · exact ⟨h1, h2⟩
    · rw [dedupFirstAux, if_neg hy]
      constructor
      · intro hmem
        rcases List.mem_cons.mp hmem with rfl | hmem
        · exact ⟨List.mem_cons_self _ _, hy⟩
        · have := (ih (y :: seen)).mp hmem
          exact ⟨List.mem_cons_of_mem _ this.1,
            fun hs => this.2 (List.mem_cons_of_mem _ hs)⟩
      · rintro ⟨h1, h2⟩
        rcases List.mem_cons.mp h1 with rfl | h1
        · exact List.mem_cons_self _ _
        · by_cases hxy : x = y
          · subst hxy; exact List.mem_cons_self _ _
          · exact List.mem_cons_of_mem _ ((ih (y :: seen)).mpr
              ⟨h1, fun hs => (List.mem_cons.mp hs).elim hxy h2⟩)

theorem mem_dedupFirst (x : String) (l : List String) :
    x ∈ dedupFirst l ↔ x ∈ l := by
  rw [dedupFirst, mem_dedupFirstAux]
  simp

instance : IsTotal String prioRel :=
  ⟨fun a b => by
    unfold prioRel
    rcases lt_trichotomy (map_priority_sort a) (map_priority_sort b) with h | h | h
    · exact Or.inl (Or.inl h)
    · rcases le_total (pyLowerS a) (pyLowerS b) with hle | hle
      · exact Or.inl (Or.inr ⟨h, hle⟩)
      · exact Or.inr (Or.inr ⟨h.symm, hle⟩)
    · exact Or.inr (Or.inl h)⟩

instance : IsTrans String prioRel :=
  ⟨fun a b c hab hbc => by
    unfold prioRel at *
    rcases hab with hab | ⟨hab, hab2⟩ <;> rcases hbc with hbc | ⟨hbc, hbc2⟩
    · exact Or.inl (lt_trans hab hbc)
    · exact Or.inl (hbc ▸ hab)
    · exact Or.inl (hab ▸ hbc)
    · exact Or.inr ⟨hab.trans hbc, le_trans hab2 hbc2⟩⟩

def priorityKeys : List String :=
  ["urgente", "urgent", "alta", "high", "media", "medium", "baja", "low"]

/-- C9: priority canonicalization is an exact-match dictionary (urgente/
urgent, alta/high, media/medium, baja/low, case-insensitive after trimming),
every other value including null mapping to "Sin criticidad"; the sort rank
is Urgente=0, Alta=1, Media=2, Baja=3 and 99 for unrecognized labels; the
category order is sorted by (rank, lower-cased label) over the distinct
stripped labels. -/
theorem claim_C9_priority_canonicalization :
    normalize_priority_labels none = "Sin criticidad"
    ∧ (∀ s : String,
        (pyLowerS (stripS s) ∈ ["urgente", "urgent"]
          → normalize_priority_labels (some s) = "Urgente")
        ∧ (pyLowerS (stripS s) ∈ ["alta", "high"]
          → normalize_priority_labels (some s) = "Alta")
        ∧ (pyLowerS (stripS s) ∈ ["media", "medium"]
          → normalize_priority_labels (some s) = "Media")
        ∧ (pyLowerS (stripS s) ∈ ["baja", "low"]
          → normalize_priority_labels (some s) = "Baja")
        ∧ (pyLowerS (stripS s) ∉ priorityKeys
          → normalize_priority_labels (some s) = "Sin criticidad"))
    ∧ map_priority_sort "Urgente" = 0 ∧ map_priority_sort "Alta" = 1
    ∧ map_priority_sort "Media" = 2 ∧ map_priority_sort "Baja" = 3
    ∧ (∀ l : String, pyLowerS (stripS l) ∉ priorityKeys → map_priority_sort l = 99)
    ∧ (∀ labels : List String,
        List.Sorted prioRel (build_priority_category_order labels)
        ∧ (∀ x, x ∈ build_priority_category_order labels ↔ x ∈ labels.map stripS)) := by
  refine ⟨rfl, ?_, rfl, rfl, rfl, rfl, ?_, ?_⟩
  · intro s
    refine ⟨fun h => ?_, fun h => ?_, fun h => ?_, fun h => ?_, fun h => ?_⟩
    · simp only [List.mem_cons, List.not_mem_nil, or_false] at h
      rcases h with h | h <;>
        simp [normalize_priority_labels, pyStr, alookup, h, PRIORITY_LABEL_MAP]
    · simp only [List.mem_cons, List.not_mem_nil, or_false] at h
      rcases h with h | h <;>
        simp [normalize_priority_labels, pyStr, alookup, h, PRIORITY_LABEL_MAP]
    · simp only [List.mem_cons, List.not_mem_nil, or_false] at h
      rcases h with h | h <;>
        simp [normalize_priority_labels, pyStr, alookup, h, PRIORITY_LABEL_MAP]
    · simp only [List.mem_cons, List.not_mem_nil, or_false] at h
      rcases h with h | h <;>
        simp [normalize_priority_labels, pyStr, alookup, h, PRIORITY_LABEL_MAP]
    · have hnone : alookup PRIORITY_LABEL_MAP (pyLowerS (stripS s)) = none := by
        apply alookup_eq_none
        intro p hp hpe
        apply h
        simp only [PRIORITY_LABEL_MAP, List.mem_cons, List.not_mem_nil, or_false] at hp
        rcases hp with rfl | rfl | rfl | rfl | rfl | rfl | rfl | rfl <;>
          (rw [hpe]; simp [priorityKeys])
      simp [normalize_priority_labels, pyStr, hnone]
  · intro l h
    have hnone : alookup PRIORITY_ORDER_MAP (pyLowerS (stripS l)) = none := by
      apply alookup_eq_none
      intro p hp hpe
      apply h
      simp only [PRIORITY_ORDER_MAP, List.mem_cons, List.not_mem_nil, or_false] at hp
      rcases hp with rfl | rfl | rfl | rfl | rfl | rfl | rfl | rfl <;>
        (rw [hpe]; simp [priorityKeys])
    simp [map_priority_sort, hnone]
  · intro labels
    refine ⟨List.sorted_insertionSort prioRel _, fun x => ?_⟩
    rw [build_priority_category_order,
      (List.perm_insertionSort prioRel _).mem_iff, mem_dedupFirst]

/-- Witness for C9 at concrete priority values. -/
theorem claim_C9_priority_canonicalization_witness :
    normalize_priority_labels (some " URGENTE ") = "Urgente"
    ∧ normalize_priority_labels (some "Crítica") = "Sin criticidad"
    ∧ map_priority_sort "Ninguna" = 99
    ∧ List.Sorted prioRel (build_priority_category_order ["Baja", "Urgente"])
    ∧ ("Baja" ∈ build_priority_category_order ["Baja", "Urgente"]
        ↔ "Baja" ∈ (["Baja", "Urgente"].map stripS)) := by
  have h := claim_C9_priority_canonicalization
  exact ⟨(h.2.1 " URGENTE ").1 (by decide),
    (h.2.1 "Crítica").2.2.2.2 (by decide),
    h.2.2.2.2.2.2.1 "Ninguna" (by decide),
    (h.2.2.2.2.2.2.2 ["Baja", "Urgente"]).1,
    (h.2.2.2.2.2.2.2 ["Baja", "Urgente"]).2 "Baja"⟩

theorem created_flow_char (rows : List Row) (year : Int) (m : Nat) :
    created_flow_count (mkDF rows) year m
      = distinctTids (rows.filter (fun r =>
          (r.anio = some year
            && decide (normalize_environment r.ambiente ∈ PROD_ENVIRONMENTS))
            && r.creacion.map Prod.snd = some m)) := by
  unfold created_flow_count mkDF filter_by_year filter_production_environment
  simp only [show ("Año" ∈ STANDARD_COLUMNS) = True by simp [STANDARD_COLUMNS],
    show ("Ambiente" ∈ STANDARD_COLUMNS) = True by simp [STANDARD_COLUMNS],
    if_true, not_true, Bool.false_eq_true, if_false]
  rw [List.filter_filter, List.filter_filter, List.filter_filter]
  congr 1
  apply List.filter_congr
  intro r _
  cases hc : r.creacion <;>
    simp [hc, Bool.and_comm, Bool.and_left_comm, Bool.and_assoc]

theorem resolved_flow_char (rows : List Row) (year : Int) (m : Nat) :
    resolved_flow_count (mkDF rows) year m
      = distinctTids (rows.filter (fun r =>
          (r.resolucion.map Prod.fst = some year
            && decide (normalize_environment r.ambiente ∈ PROD_ENVIRONMENTS))
            && orch_build_resolved_mask r.estado r.estadoRes
            && r.resolucion.map Prod.snd = some m)) := by
  unfold resolved_flow_count mkDF filter_resolved_by_year filter_production_environment
  simp only [show ("Hora de resolucion" ∈ STANDARD_COLUMNS) = True by simp [STANDARD_COLUMNS],
    show ("Ambiente" ∈ STANDARD_COLUMNS) = True by simp [STANDARD_COLUMNS],
    if_true, not_true, Bool.false_eq_true, if_false]
  rw [List.filter_filter, List.filter_filter, List.filter_filter]
  congr 1
  apply List.filter_congr
  intro r _
  simp [Bool.and_comm, Bool.and_left_comm, Bool.and_assoc]

/-- A production ticket created in December of year N and resolved in
January of year N + 1, marked resolved by its status. -/
def crossRow (N : Int) : Row :=
  ⟨"X", some 12, some N, some (N, 12), some (N + 1, 1), some "Resuelto", none,
   some "Acme", none, none, some "Produccion", none, none⟩

/-- C7: the "created" flow row counts distinct tickets by creation month
among rows whose "Año" equals the selected year, while the "resolved" row
counts distinct resolved tickets by resolution month among rows whose
resolution timestamp falls in the selected year; a ticket created in
December of year N and resolved in January of N + 1 is counted as created
in year N and as resolved in year N + 1, and in neither other year. -/
theorem claim_C7_flow_asymmetry :
    (∀ (rows : List Row) (year : Int) (m : Nat),
        created_flow_count (mkDF rows) year m
          = distinctTids (rows.filter (fun r =>
              (r.anio = some year
                && decide (normalize_environment r.ambiente ∈ PROD_ENVIRONMENTS))
                && r.creacion.map Prod.snd = some m))
        ∧ resolved_flow_count (mkDF rows) year m
          = distinctTids (rows.filter (fun r =>
              (r.resolucion.map Prod.fst = some year
                && decide (normalize_environment r.ambiente ∈ PROD_ENVIRONMENTS))
                && orch_build_resolved_mask r.estado r.estadoRes
                && r.resolucion.map Prod.snd = some m)))
    ∧ (∀ N : Int,
        created_flow_count (mkDF [crossRow N]) N 12 = 1
        ∧ resolved_flow_count (mkDF [crossRow N]) (N + 1) 1 = 1
        ∧ created_flow_count (mkDF [crossRow N]) (N + 1) 12 = 0
        ∧ resolved_flow_count (mkDF [crossRow N]) N 1 = 0) := by
  have henv : normalize_environment (some "Produccion") ∈ PROD_ENVIRONMENTS := by decide
  have hmask : orch_build_resolved_mask (some "Resuelto") none = true := by decide
  refine ⟨fun rows year m => ⟨created_flow_char rows year m, resolved_flow_char rows year m⟩,
    fun N => ⟨?_, ?_, ?_, ?_⟩⟩
  · rw [created_flow_char]
    simp [crossRow, henv, distinctTids]
  · rw [resolved_flow_char]
    simp [crossRow, henv, hmask, distinctTids]
  · rw [created_flow_char]
    have : (N : Int) ≠ N + 1 := by omega
    simp [crossRow, henv, distinctTids, this]
  · rw [resolved_flow_char]
    have : (N + 1 : Int) ≠ N := by omega
    simp [crossRow, henv, hmask, distinctTids, this]

theorem deaccent_ws (c : Char) : isWsChar (deaccentChar c) = isWsChar c := by
  unfold deaccentChar
  cases h : alookup deaccentTable c with
  | none => rfl
  | some v =>
    have hm := alookup_mem h
    have hprop : ∀ p ∈ deaccentTable, isWsChar p.1 = false ∧ isWsChar p.2 = false := by
      decide
    have hp := hprop _ hm
    simp [hp.1, hp.2]

theorem deaccent_stripped (c : Char) :
    alookup deaccentTable (deaccentChar c) = none := by
  unfold deaccentChar
  cases h : alookup deaccentTable c with
  | none => simpa using h
  | some v =>
    have hm := alookup_mem h
    have hprop : ∀ p ∈ deaccentTable, alookup deaccentTable p.2 = none := by decide
    simpa using hprop _ hm

theorem deaccent_comm_lower (c : Char) :
    pyLowerChar (deaccentChar c) = deaccentChar (pyLowerChar c) := by
  cases hd : alookup deaccentTable c with
  | some v =>
    have hm := alookup_mem hd
    have hprop : ∀ p ∈ deaccentTable,
        pyLowerChar p.2 = deaccentChar (pyLowerChar p.1) := by decide
    have hp := hprop _ hm
    simpa [deaccentChar, hd] using hp
  | none =>
    cases hl : alookup lowerTable c with
    | none => simp [deaccentChar, pyLowerChar, hd, hl]
    | some v =>
      have hm := alookup_mem hl
      have hprop : ∀ p ∈ lowerTable,
          alookup deaccentTable p.1 = none → deaccentChar p.2 = p.2 := by decide
      have hp : deaccentChar v = v := hprop _ hm hd
      rw [show deaccentChar c = c by simp [deaccentChar, hd],
        show pyLowerChar c = v by simp [pyLowerChar, hl]]
      exact hp.symm

theorem replacePair_ne_nil (a b rep : Char) :
    ∀ l : List Char, l ≠ [] → replacePair a b rep l ≠ [] := by
  intro l
  match l with
  | [] => intro h; exact absurd rfl h
  | [c] => intro _; simp [replacePair]
  | c :: d :: rest =>
    intro _
    rw [replacePair]
    split <;> simp

theorem replacePair_exists_nonws (a b rep : Char) (hrep : isWsChar rep = false) :
    ∀ l : List Char, (∃ c ∈ l, isWsChar c = false)
      → ∃ c ∈ replacePair a b rep l, isWsChar c = false := by
  intro l
  induction l using replacePair.induct a b rep with
  | case1 => rintro ⟨c, hc, _⟩; exact absurd hc (List.not_mem_nil c)
  | case2 c => intro h; simpa [replacePair] using h
  | case3 c d rest hm ih =>
    intro _
    rw [replacePair, if_pos hm]
    exact ⟨rep, List.mem_cons_self _ _, hrep⟩
  | case4 c d rest hm ih =>
    rintro ⟨x, hx, hxw⟩
    rw [replacePair, if_neg hm]
    rcases List.mem_cons.mp hx with rfl | hx
    · exact ⟨x, List.mem_cons_self _ _, hxw⟩
    · obtain ⟨y, hy, hyw⟩ := ih ⟨x, hx, hxw⟩
      exact ⟨y, List.mem_cons_of_mem _ hy, hyw⟩

theorem foldl_replace_exists_nonws (steps : List (Char × Char × Char))
    (hsteps : ∀ s ∈ steps, isWsChar s.2.2 = false) :
    ∀ l, (∃ c ∈ l, isWsChar c = false)
      → ∃ c ∈ steps.foldl (fun acc s => replacePair s.1 s.2.1 s.2.2 acc) l,
          isWsChar c = false := by
  induction steps with
  | nil => intro l h; simpa using h
  | cons st sts ih =>
    intro l h
    rw [List.foldl_cons]
    exact ih (fun s hs => hsteps s (List.mem_cons_of_mem _ hs)) _
      (replacePair_exists_nonws _ _ _ (hsteps st (List.mem_cons_self _ _)) l h)

theorem fixList_exists_nonws (l : List Char) (h : ∃ c ∈ l, isWsChar c = false) :
    ∃ c ∈ fixList l, isWsChar c = false := by
  rw [fixList]
  exact foldl_replace_exists_nonws fixSteps (by decide) l h

theorem squeeze_exists_nonws :
    ∀ l : List Char, (∃ c ∈ l, isWsChar c = false)
      → ∃ c ∈ squeezeList l, isWsChar c = false := by
  intro l
  induction l with
  | nil => rintro ⟨c, hc, _⟩; exact absurd hc (List.not_mem_nil c)
  | cons c cs ih =>
    rintro ⟨x, hx, hxw⟩
    rcases List.mem_cons.mp hx with rfl | hx
    · rw [squeezeList, if_neg (by simp [hxw])]
      exact ⟨x, List.mem_cons_self _ _, hxw⟩
    · by_cases hc : isWsChar c
      · rw [squeezeList, if_pos hc]
        obtain ⟨y, hy, hyw⟩ := ih ⟨x, hx, hxw⟩
        cases hh : cs.head? with
        | none => exact ⟨y, List.mem_cons_of_mem _ hy, hyw⟩
        | some d =>
          by_cases hd : isWsChar d
          · simpa [hd] using ⟨y, hy, hyw⟩
          · simp only [hd, if_false, Bool.false_eq_true]
            exact ⟨y, List.mem_cons_of_mem _ hy, hyw⟩
      · rw [squeezeList, if_neg hc]
        obtain ⟨y, hy, hyw⟩ := ih ⟨x, hx, hxw⟩
        exact ⟨y, List.mem_cons_of_mem _ hy, hyw⟩

theorem dropWs_exists_nonws (l : List Char) (h : ∃ c ∈ l, isWsChar c = false) :
    ∃ c ∈ dropWs l, isWsChar c = false := by
  induction l with
  | nil => obtain ⟨c, hc, _⟩ := h; exact absurd hc (List.not_mem_nil c)
  | cons c cs ih =>
    obtain ⟨x, hx, hxw⟩ := h
    by_cases hc : isWsChar c
    · rcases List.mem_cons.mp hx with rfl | hx
      · rw [hc] at hxw; cases hxw
      · rw [dropWs, List.dropWhile_cons_of_pos hc]
        exact ih ⟨x, hx, hxw⟩
    · rw [dropWs, List.dropWhile_cons_of_neg (by simpa using hc)]
      exact ⟨x, hx, hxw⟩

theorem strip_exists_nonws (l : List Char) (h : ∃ c ∈ l, isWsChar c = false) :
    ∃ c ∈ stripList l, isWsChar c = false := by
  unfold stripList
  obtain ⟨x, hx, hxw⟩ := h
  obtain ⟨y, hy, hyw⟩ := dropWs_exists_nonws l.reverse ⟨x, List.mem_reverse.mpr hx, hxw⟩
  exact dropWs_exists_nonws (dropWs l.reverse).reverse ⟨y, List.mem_reverse.mpr hy, hyw⟩

theorem titleChars_length : ∀ (b : Bool) (l : List Char),
    (titleChars b l).length = l.length := by
  intro b l
  induction l generalizing b with
  | nil => rfl
  | cons c cs ih => simp [titleChars, ih]

theorem dropWhile_head_not (p : Char → Bool) :
    ∀ (m : List Char) (x : Char) (xs : List Char),
      m.dropWhile p = x :: xs → p x = false := by
  intro m
  induction m with
  | nil => intro x xs h; simp at h
  | cons d ds ihm =>
    intro x xs h
    by_cases hd : p d
    · rw [List.dropWhile_cons_of_pos hd] at h
      exact ihm x xs h
    · rw [List.dropWhile_cons_of_neg (by simpa using hd)] at h
      have hdx : d = x := ((List.cons.injEq _ _ _ _).mp h).1
      subst hdx
      simpa using hd

theorem stripList_head_nonws (l : List Char) :
    stripList l = [] ∨ ∃ c ∈ stripList l, isWsChar c = false := by
  cases hs : stripList l with
  | nil => exact Or.inl rfl
  | cons c cs =>
    right
    have hx : isWsChar c = false := by
      rw [stripList, dropWs] at hs
      exact dropWhile_head_not isWsChar _ c cs hs
    refine ⟨c, ?_, hx⟩
    exact List.mem_cons_self _ _

theorem displayFallback_ne_empty (r : String)
    (h : ∃ c ∈ r.data, isWsChar c = false) : displayFallback r ≠ "" := by
  unfold displayFallback titleS
  intro hcon
  have hdata : (titleChars false (stripList (squeezeList (fixList r.data)))).length = 0 := by
    have := congrArg String.data hcon
    simpa using this
  rw [titleChars_length] at hdata
  obtain ⟨c, hc, _⟩ :=
    strip_exists_nonws _ (squeeze_exists_nonws _ (fixList_exists_nonws _ h))
  rw [List.length_eq_zero.mp hdata] at hc
  exact List.not_mem_nil c hc

theorem normalize_estado_total (s : String) (h : stripS s ≠ "") :
    ∃ v, normalize_estado_for_display (some s) = some v ∧ v ≠ "" := by
  have hfb : displayFallback (stripS s) ≠ "" := by
    apply displayFallback_ne_empty
    have hne : stripList s.data ≠ [] := by
      intro hcon
      exact h (congrArg String.mk hcon)
    rcases stripList_head_nonws s.data with hnil | hex
    · exact absurd hnil hne
    · exact hex
  unfold normalize_estado_for_display
  simp only [Option.map_some', Option.getD_some]
  split
  · exact ⟨"Resuelto", rfl, by decide⟩
  split
  case h_1 v heq =>
    have hm := alookup_mem heq
    have hv : ∀ p ∈ estadoExactMap, p.2 ≠ "" := by decide
    exact ⟨v, rfl, hv _ hm⟩
  case h_2 =>
    split
    · exact ⟨"En progreso", rfl, by decide⟩
    split
    · exact ⟨"En espera", rfl, by decide⟩
    split
    · exact ⟨"Pendiente", rfl, by decide⟩
    split
    · exact ⟨"Cancelado", rfl, by decide⟩
    split
    · exact ⟨"Reabierto", rfl, by decide⟩
    exact ⟨displayFallback (stripS s), rfl, hfb⟩

theorem normalize_resolution_ne_empty (o : Option String) :
    normalize_resolution_status_for_display o ≠ "" := by
  cases o with
  | none => decide
  | some s =>
    have hfb : stripS s ≠ "" → displayFallback (stripS s) ≠ "" := by
      intro hs
      apply displayFallback_ne_empty
      rcases stripList_head_nonws s.data with hnil | hex
      · exact absurd (congrArg String.mk hnil) hs
      · exact hex
    unfold normalize_resolution_status_for_display
    simp only [Option.map_some', Option.getD_some]
    split
    · decide
    split
    · decide
    split
    · decide
    split
    · decide
    split
    · decide
    split
    · decide
    · next hne => exact hfb hne

/-- C5: the (spec-modelled) `remove_accents` maps each character to its
diacritic-free base, preserving length, whitespace positions and case
(it commutes with lower-casing), and its output carries no accented
character; the status and resolution display normalizations built on it
return a value for every row: a non-blank status always normalizes to a
non-empty label and the resolution normalization never returns an empty
string. -/
theorem claim_C5_remove_accents_total :
    (∀ s : String, (remove_accents s).data = s.data.map deaccentChar
      ∧ (remove_accents s).length = s.length)
    ∧ (∀ c : Char, isWsChar (deaccentChar c) = isWsChar c)
    ∧ (∀ c : Char, pyLowerChar (deaccentChar c) = deaccentChar (pyLowerChar c))
    ∧ (∀ c : Char, alookup deaccentTable (deaccentChar c) = none)
    ∧ (∀ s : String, stripS s ≠ ""
        → ∃ v, normalize_estado_for_display (some s) = some v ∧ v ≠ "")
    ∧ (∀ o : Option String, normalize_resolution_status_for_display o ≠ "") := by
  refine ⟨fun s => ⟨rfl, ?_⟩, deaccent_ws, deaccent_comm_lower, deaccent_stripped,
    normalize_estado_total, normalize_resolution_ne_empty⟩
  show (remove_accents s).data.length = s.data.length
  simp [remove_accents]

/-- Witness for C5 at concrete inputs. -/
theorem claim_C5_remove_accents_total_witness :
    (remove_accents "Módulo X").data = "Módulo X".data.map deaccentChar
    ∧ (∃ v, normalize_estado_for_display (some "resuelto") = some v ∧ v ≠ "")
    ∧ normalize_resolution_status_for_display (some "???") ≠ "" := by
  have h := claim_C5_remove_accents_total
  exact ⟨(h.1 "Módulo X").1, h.2.2.2.2.1 "resuelto" (by decide),
    h.2.2.2.2.2 (some "???")⟩

theorem lower_ws (c : Char) : isWsChar (pyLowerChar c) = isWsChar c := by
  unfold pyLowerChar
  cases h : alookup lowerTable c with
  | none => rfl
  | some v =>
    have hm := alookup_mem h
    have hprop : ∀ p ∈ lowerTable, isWsChar p.1 = false ∧ isWsChar p.2 = false := by
      decide
    have hp := hprop _ hm
    simp [hp.1, hp.2]

theorem lower_idem (c : Char) : pyLowerChar (pyLowerChar c) = pyLowerChar c := by
  unfold pyLowerChar
  cases h : alookup lowerTable c with
  | none => simp [h]
  | some v =>
    have hm := alookup_mem h
    have hprop : ∀ p ∈ lowerTable, alookup lowerTable p.2 = none := by decide
    simp [hprop _ hm]

theorem lower_upper (c : Char) : pyLowerChar (pyUpperChar c) = pyLowerChar c := by
  unfold pyUpperChar
  cases h : alookup upperTable c with
  | none => rfl
  | some v =>
    have hm := alookup_mem h
    have hprop : ∀ p ∈ upperTable, pyLowerChar p.2 = pyLowerChar p.1 := by decide
    simpa using hprop _ hm

theorem title_lower (b : Bool) (l : List Char) :
    (titleChars b l).map pyLowerChar = l.map pyLowerChar := by
  induction l generalizing b with
  | nil => rfl
  | cons c cs ih =>
    rw [titleChars]
    cases b <;> simp [lower_idem, lower_upper, ih]

theorem dropWhile_map_ws (f : Char → Char) (hf : ∀ c, isWsChar (f c) = isWsChar c)
    (l : List Char) : (l.map f).dropWhile isWsChar = (l.dropWhile isWsChar).map f := by
  induction l with
  | nil => rfl
  | cons c cs ih =>
    by_cases hc : isWsChar c
    · rw [List.map_cons, List.dropWhile_cons_of_pos (by rw [hf]; exact hc),
        List.dropWhile_cons_of_pos hc, ih]
    · rw [List.map_cons, List.dropWhile_cons_of_neg (by rw [hf]; simpa using hc),
        List.dropWhile_cons_of_neg (by simpa using hc), List.map_cons]

theorem strip_map_comm (f : Char → Char) (hf : ∀ c, isWsChar (f c) = isWsChar c)
    (l : List Char) : stripList (l.map f) = (stripList l).map f := by
  unfold stripList dropWs
  rw [← List.map_reverse, dropWhile_map_ws f hf, ← List.map_reverse,
    dropWhile_map_ws f hf]

theorem dropWhile_append_last (p : Char → Bool) (a : Char) (ha : p a = false) :
    ∀ u : List Char, (u ++ [a]).dropWhile p = u.dropWhile p ++ [a] := by
  intro u
  induction u with
  | nil => simp [List.dropWhile_cons, ha]
  | cons c cs ih =>
    by_cases hc : p c
    · rw [List.cons_append, List.dropWhile_cons_of_pos hc,
        List.dropWhile_cons_of_pos hc, ih]
    · rw [List.cons_append, List.dropWhile_cons_of_neg (by simpa using hc),
        List.dropWhile_cons_of_neg (by simpa using hc), List.cons_append]

theorem stripList_last_nonws (l : List Char) :
    stripList l = [] ∨ ∃ t x, stripList l = t ++ [x] ∧ isWsChar x = false := by
  cases hA : dropWs l.reverse with
  | nil =>
    left
    rw [stripList, hA]
    rfl
  | cons a as =>
    right
    have ha : isWsChar a = false := by
      rw [dropWs] at hA
      exact dropWhile_head_not isWsChar _ a as hA
    refine ⟨dropWs as.reverse, a, ?_, ha⟩
    rw [stripList, hA, List.reverse_cons, dropWs, dropWs,
      dropWhile_append_last isWsChar a ha]

theorem strip_id_of_ends (l : List Char)
    (h1 : ∀ c cs, l = c :: cs → isWsChar c = false)
    (h2 : ∀ t x, l = t ++ [x] → isWsChar x = false) : stripList l = l := by
  cases hl : l with
  | nil => rfl
  | cons c cs =>
    have hc := h1 c cs hl
    have hconcat : ∃ t x, l = t ++ [x] := by
      cases hr : l.reverse with
      | nil => rw [hl] at hr; simp at hr
      | cons x rt =>
        refine ⟨rt.reverse, x, ?_⟩
        have := congrArg List.reverse hr
        simpa using this
    obtain ⟨t, x, htx⟩ := hconcat
    have hx := h2 t x htx
    have hrev : l.reverse = x :: t.reverse := by rw [htx]; simp
    have e1 : List.dropWhile isWsChar l.reverse = l.reverse := by
      rw [hrev]
      exact List.dropWhile_cons_of_neg (by simp [hx])
    rw [← hl, stripList, dropWs, dropWs, e1, List.reverse_reverse, hl]
    exact List.dropWhile_cons_of_neg (by simp [hc])

theorem strip_idem (l : List Char) : stripList (stripList l) = stripList l := by
  apply strip_id_of_ends
  · intro c cs h
    rw [stripList, dropWs] at h
    exact dropWhile_head_not isWsChar _ c cs h
  · intro t x h
    rcases stripList_last_nonws l with hnil | ⟨t2, x2, h2, hx2⟩
    · rw [hnil] at h
      exact absurd (congrArg List.length h) (by simp)
    · rw [h2] at h
      have hx2x : x2 = x := by
        have hr := congrArg List.reverse h
        simp only [List.reverse_append, List.reverse_singleton,
          List.singleton_append] at hr
        exact ((List.cons.injEq _ _ _ _).mp hr).1
      exact hx2x ▸ hx2

theorem squeeze_cons_nonws (c : Char) (t : List Char) (hc : isWsChar c = false) :
    squeezeList (c :: t) = c :: squeezeList t := by
  rw [squeezeList]
  simp [hc]

theorem squeeze_append_last (x : Char) (hx : isWsChar x = false) :
    ∀ t : List Char, squeezeList (t ++ [x]) = squeezeList t ++ [x] := by
  intro t
  induction t with
  | nil => simp [squeezeList, hx]
  | cons c cs ih =>
    by_cases hc : isWsChar c
    · rw [List.cons_append, squeezeList, if_pos hc]
      cases cs with
      | nil => simp [squeezeList, hc, hx]
      | cons d ds =>
        rw [squeezeList, if_pos hc]
        simp only [List.cons_append, List.head?_cons]
        by_cases hd : isWsChar d
        · simp only [hd, if_true]
          exact ih
        · simp only [hd, Bool.false_eq_true, if_false]
          exact congrArg (' ' :: ·) ih
    · rw [List.cons_append, squeeze_cons_nonws c _ (by simpa using hc),
        squeeze_cons_nonws c _ (by simpa using hc), ih, List.cons_append]

theorem squeeze_space_of_ws :
    ∀ l : List Char, (∃ w ∈ l, isWsChar w = true) → ' ' ∈ squeezeList l := by
  intro l
  induction l with
  | nil => rintro ⟨w, hw, _⟩; exact absurd hw (List.not_mem_nil w)
  | cons c cs ih =>
    rintro ⟨w, hw, hww⟩
    by_cases hc : isWsChar c
    · rw [squeezeList, if_pos hc]
      cases hh : cs.head? with
      | none => exact List.mem_cons_self _ _
      | some d =>
        by_cases hd : isWsChar d
        · simp only [hd, if_true]
          apply ih
          refine ⟨d, ?_, hd⟩
          cases cs with
          | nil => simp at hh
          | cons e es =>
            rw [List.head?_cons] at hh
            rw [← Option.some.injEq _ _ |>.mp hh]
            exact List.mem_cons_self _ _
        · simp only [hd, Bool.false_eq_true, if_false]
          exact List.mem_cons_self _ _
    · rw [squeeze_cons_nonws c cs (by simpa using hc)]
      rcases List.mem_cons.mp hw with rfl | hw2
      · rw [hww] at hc; exact absurd rfl hc
      · exact List.mem_cons_of_mem _ (ih ⟨w, hw2, hww⟩)

theorem squeeze_id_of_nonws :
    ∀ l : List Char, (∀ c ∈ l, isWsChar c = false) → squeezeList l = l := by
  intro l
  induction l with
  | nil => intro _; rfl
  | cons c cs ih =>
    intro h
    rw [squeeze_cons_nonws c cs (h c (List.mem_cons_self _ _)),
      ih fun d hd => h d (List.mem_cons_of_mem _ hd)]

theorem mem_squeeze_of_nonws (c : Char) (hc : isWsChar c = false) :
    ∀ l : List Char, c ∈ l → c ∈ squeezeList l := by
  intro l
  induction l with
  | nil => intro h; exact absurd h (List.not_mem_nil c)
  | cons d ds ih =>
    intro h
    by_cases hd : isWsChar d
    · have hcd : c ∈ ds := by
        rcases List.mem_cons.mp h with rfl | h2
        · rw [hc] at hd; cases hd
        · exact h2
      rw [squeezeList, if_pos hd]
      cases hh : ds.head? with
      | none => exact List.mem_cons_of_mem _ (ih hcd)
      | some e =>
        by_cases he : isWsChar e
        · simp only [he, if_true]
          exact ih hcd
        · simp only [he, Bool.false_eq_true, if_false]
          exact List.mem_cons_of_mem _ (ih hcd)
    · rw [squeeze_cons_nonws d ds (by simpa using hd)]
      rcases List.mem_cons.mp h with rfl | h2
      · exact List.mem_cons_self _ _
      · exact List.mem_cons_of_mem _ (ih h2)

theorem mem_dropWs_of_nonws (c : Char) (hc : isWsChar c = false)
    (l : List Char) (h : c ∈ l) : c ∈ dropWs l := by
  induction l with
  | nil => exact absurd h (List.not_mem_nil c)
  | cons d ds ih =>
    by_cases hd : isWsChar d
    · have hcd : c ∈ ds := by
        rcases List.mem_cons.mp h with rfl | h2
        · rw [hc] at hd; cases hd
        · exact h2
      rw [dropWs, List.dropWhile_cons_of_pos hd]
      exact ih hcd
    · rw [dropWs, List.dropWhile_cons_of_neg (by simpa using hd)]
      exact h

theorem mem_strip_of_nonws (c : Char) (hc : isWsChar c = false)
    (l : List Char) (h : c ∈ l) : c ∈ stripList l := by
  rw [stripList]
  exact mem_dropWs_of_nonws c hc _
    (List.mem_reverse.mpr (mem_dropWs_of_nonws c hc _ (List.mem_reverse.mpr h)))

theorem replacePair_eq_or_mem (a b rep : Char) :
    ∀ l : List Char, replacePair a b rep l = l ∨ rep ∈ replacePair a b rep l := by
  intro l
  induction l using replacePair.induct a b rep with
  | case1 => exact Or.inl rfl
  | case2 c => exact Or.inl rfl
  | case3 c d rest hm ih =>
    right
    rw [replacePair, if_pos hm]
    exact List.mem_cons_self _ _
  | case4 c d rest hm ih =>
    rw [replacePair, if_neg hm]
    rcases ih with ih | ih
    · exact Or.inl (congrArg (c :: ·) ih)
    · exact Or.inr (List.mem_cons_of_mem _ ih)

theorem mem_replacePair (a b rep c : Char) (hca : c ≠ a) (hcb : c ≠ b) :
    ∀ l : List Char, c ∈ l → c ∈ replacePair a b rep l := by
  intro l
  induction l using replacePair.induct a b rep with
  | case1 => intro h; exact absurd h (List.not_mem_nil c)
  | case2 d => intro h; simpa [replacePair] using h
  | case3 d e rest hm ih =>
    intro h
    rw [replacePair, if_pos hm]
    obtain ⟨rfl, rfl⟩ := hm
    rcases List.mem_cons.mp h with rfl | h
    · exact absurd rfl hca
    · rcases List.mem_cons.mp h with rfl | h
      · exact absurd rfl hcb
      · exact List.mem_cons_of_mem _ (ih h)
  | case4 d e rest hm ih =>
    intro h
    rw [replacePair, if_neg hm]
    rcases List.mem_cons.mp h with rfl | h
    · exact List.mem_cons_self _ _
    · exact List.mem_cons_of_mem _ (ih h)

theorem foldl_replace_preserve (c : Char) :
    ∀ (steps : List (Char × Char × Char)),
      (∀ s ∈ steps, c ≠ s.1 ∧ c ≠ s.2.1) → ∀ l, c ∈ l
        → c ∈ steps.foldl (fun acc s => replacePair s.1 s.2.1 s.2.2 acc) l := by
  intro steps
  induction steps with
  | nil => intro _ l h; simpa using h
  | cons st sts ih =>
    intro hcond l h
    rw [List.foldl_cons]
    have hc := hcond st (List.mem_cons_self _ _)
    exact ih (fun s hs => hcond s (List.mem_cons_of_mem _ hs)) _
      (mem_replacePair st.1 st.2.1 st.2.2 c hc.1 hc.2 l h)

theorem foldl_replace_eq_or_mem :
    ∀ (steps : List (Char × Char × Char)),
      (∀ s ∈ steps, ∀ s' ∈ steps, s.2.2 ≠ s'.1 ∧ s.2.2 ≠ s'.2.1) → ∀ l,
        steps.foldl (fun acc s => replacePair s.1 s.2.1 s.2.2 acc) l = l
        ∨ ∃ s ∈ steps, s.2.2 ∈ steps.foldl (fun acc s => replacePair s.1 s.2.1 s.2.2 acc) l := by
  intro steps
  induction steps with
  | nil => intro _ l; exact Or.inl rfl
  | cons st sts ih =>
    intro hcond l
    rw [List.foldl_cons]
    rcases replacePair_eq_or_mem st.1 st.2.1 st.2.2 l with he | hm
    · rw [he]
      rcases ih (fun s hs => fun s' hs' =>
          hcond s (List.mem_cons_of_mem _ hs) s' (List.mem_cons_of_mem _ hs')) l with
        he2 | ⟨s, hs, hmem⟩
      · exact Or.inl he2
      · exact Or.inr ⟨s, List.mem_cons_of_mem _ hs, hmem⟩
    · right
      refine ⟨st, List.mem_cons_self _ _, ?_⟩
      apply foldl_replace_preserve st.2.2 sts
      · intro s hs
        exact hcond st (List.mem_cons_self _ _) s (List.mem_cons_of_mem _ hs)
      · exact hm

theorem fixList_eq_or_accent (l : List Char) :
    fixList l = l ∨ ∃ s ∈ fixSteps, s.2.2 ∈ fixList l := by
  rw [fixList]
  exact foldl_replace_eq_or_mem fixSteps (by decide) l

theorem deaccent_id_of_lower_resuelto (c : Char)
    (h : pyLowerChar c ∈ "resuelto".data) : deaccentChar c = c := by
  unfold deaccentChar
  cases hd : alookup deaccentTable c with
  | none => rfl
  | some v =>
    have hm := alookup_mem hd
    have hprop : ∀ p ∈ deaccentTable, pyLowerChar p.1 ∉ "resuelto".data := by decide
    exact absurd h (hprop _ hm)

theorem lower_strip_title (y : List Char) (hy : stripList y = y) :
    (stripList (titleChars false y)).map pyLowerChar = y.map pyLowerChar := by
  have h1 := strip_map_comm pyLowerChar lower_ws (titleChars false y)
  rw [← h1, title_lower, strip_map_comm pyLowerChar lower_ws, hy]

theorem pyLowerS_data (x : String) : (pyLowerS x).data = x.data.map pyLowerChar := rfl

theorem stripS_data (x : String) : (stripS x).data = stripList x.data := rfl

theorem remove_accents_data (x : String) :
    (remove_accents x).data = x.data.map deaccentChar := rfl

theorem displayFallback_data (x : String) : (displayFallback x).data
    = titleChars false (stripList (squeezeList (fixList x.data))) := rfl

theorem fallback_not_resuelto (s : String)
    (hb : pyLowerS (stripS (remove_accents (stripS s))) ∉ RESOLVED_STATES) :
    pyLowerS (stripS (displayFallback (stripS s))) ≠ "resuelto" := by
  intro hL
  have hdata : (stripList ((displayFallback (stripS s)).data)).map pyLowerChar
      = "resuelto".data := by
    have h0 := congrArg String.data hL
    rw [pyLowerS_data, stripS_data] at h0
    exact h0
  have hfb0 := displayFallback_data (stripS s)
  rw [stripS_data] at hfb0
  set rd : List Char := stripList s.data with hrd
  set y : List Char := stripList (squeezeList (fixList rd)) with hy
  have hystrip : stripList y = y := by rw [hy]; exact strip_idem _
  have hpy : y.map pyLowerChar = "resuelto".data := by
    rw [hfb0, lower_strip_title y hystrip] at hdata
    exact hdata
  have hnw : ∀ c ∈ y, isWsChar c = false := by
    intro c hc
    have hmem : pyLowerChar c ∈ "resuelto".data := hpy ▸ List.mem_map_of_mem _ hc
    have hall : ∀ d ∈ "resuelto".data, isWsChar d = false := by decide
    rw [← lower_ws c]
    exact hall _ hmem
  have hz : fixList rd = rd := by
    rcases fixList_eq_or_accent rd with he | ⟨st, hst, hmem⟩
    · exact he
    · exfalso
      have hstw : ∀ u ∈ fixSteps, isWsChar u.2.2 = false := by decide
      have h1 : st.2.2 ∈ squeezeList (fixList rd) :=
        mem_squeeze_of_nonws _ (hstw _ hst) _ hmem
      have h2 : st.2.2 ∈ y := by
        rw [hy]
        exact mem_strip_of_nonws _ (hstw _ hst) _ h1
      have h3 : pyLowerChar st.2.2 ∈ "resuelto".data :=
        hpy ▸ List.mem_map_of_mem _ h2
      have h4 : ∀ u ∈ fixSteps, pyLowerChar u.2.2 ∉ "resuelto".data := by decide
      exact h4 _ hst h3
  rw [hz] at hy
  have hrdne : rd ≠ [] := by
    intro hnil
    rw [hnil] at hy
    have hynil : y = [] := by rw [hy]; rfl
    rw [hynil] at hpy
    exact absurd (congrArg List.length hpy) (by decide)
  obtain ⟨c0, t0, hcons⟩ : ∃ c0 t0, rd = c0 :: t0 := by
    cases hc : rd with
    | nil => exact absurd hc hrdne
    | cons a b => exact ⟨a, b, rfl⟩
  have hc0 : isWsChar c0 = false := by
    have hsc : stripList s.data = c0 :: t0 := hrd.symm.trans hcons
    rw [stripList, dropWs] at hsc
    exact dropWhile_head_not isWsChar _ c0 t0 hsc
  obtain ⟨tl, xl, hlast, hxl⟩ :
      ∃ t x, rd = t ++ [x] ∧ isWsChar x = false := by
    rcases stripList_last_nonws s.data with hnil | ⟨t, x, hsx, hx⟩
    · exact absurd (hrd.trans hnil) hrdne
    · exact ⟨t, x, hrd.trans hsx, hx⟩
  have hstripq : stripList (squeezeList rd) = squeezeList rd := by
    apply strip_id_of_ends
    · intro c cs hq
      rw [hcons, squeeze_cons_nonws c0 t0 hc0] at hq
      rw [← ((List.cons.injEq _ _ _ _).mp hq).1]
      exact hc0
    · intro t x hq
      rw [hlast, squeeze_append_last xl hxl tl] at hq
      have hrev := congrArg List.reverse hq
      simp only [List.reverse_append, List.reverse_singleton,
        List.singleton_append] at hrev
      rw [← ((List.cons.injEq _ _ _ _).mp hrev).1]
      exact hxl
  have hyq : y = squeezeList rd := hy.trans hstripq
  have hnords : ∀ c ∈ rd, isWsChar c = false := by
    intro c hc
    by_contra hcw
    have hw : isWsChar c = true := by
      cases h : isWsChar c
      · exact absurd h hcw
      · rfl
    have hsp : ' ' ∈ squeezeList rd := squeeze_space_of_ws rd ⟨c, hc, hw⟩
    have hspy : ' ' ∈ y := hyq ▸ hsp
    have := hnw ' ' hspy
    exact absurd this (by decide)
  have hyrd : y = rd := by
    rw [hyq, squeeze_id_of_nonws rd hnords]
  have hda : rd.map deaccentChar = rd := by
    have hall : ∀ a ∈ rd, deaccentChar a = id a := by
      intro a ha
      apply deaccent_id_of_lower_resuelto
      rw [← hpy, hyrd]
      exact List.mem_map_of_mem _ ha
    rw [List.map_congr_left hall, List.map_id]
  apply hb
  have hnormdata : (pyLowerS (stripS (remove_accents (stripS s)))).data
      = "resuelto".data := by
    rw [pyLowerS_data, stripS_data, remove_accents_data, stripS_data]
    rw [← hrd, hda]
    have hsr : stripList rd = rd := by rw [hrd]; exact strip_idem _
    rw [hsr, ← hyrd, hpy]
  have hfinal : pyLowerS (stripS (remove_accents (stripS s))) = "resuelto" := by
    cases he : pyLowerS (stripS (remove_accents (stripS s)))
    rw [he] at hnormdata
    exact congrArg String.mk hnormdata
  rw [hfinal]
  decide

theorem norm_strip_inner (s : String) :
    pyLowerS (stripS (remove_accents (stripS s)))
      = pyLowerS (stripS (remove_accents s)) := by
  have hdata : (pyLowerS (stripS (remove_accents (stripS s)))).data
      = (pyLowerS (stripS (remove_accents s))).data := by
    rw [pyLowerS_data, stripS_data, remove_accents_data, stripS_data,
      pyLowerS_data, stripS_data, remove_accents_data]
    rw [strip_map_comm deaccentChar deaccent_ws (stripList s.data), strip_idem,
      strip_map_comm deaccentChar deaccent_ws s.data]
  exact congrArg String.mk hdata

theorem helper_estado_iff (estado : Option String) :
    (pyLowerS (stripS (pyStr (normalize_estado_for_display estado))) = "resuelto")
      ↔ pyLowerS (stripS (remove_accents (estado.getD ""))) ∈ RESOLVED_STATES := by
  cases estado with
  | none => decide
  | some s =>
    have hnorm := norm_strip_inner s
    rw [normalize_estado_for_display]
    simp only [Option.map_some', Option.getD_some]
    split
    · next hin =>
      exact iff_of_true (by decide) (by rw [← hnorm]; exact hin)
    · next hnot =>
      have hnots : pyLowerS (stripS (remove_accents s)) ∉ RESOLVED_STATES := by
        rw [← hnorm]; exact hnot
      split
      · next v heq =>
        have hm := alookup_mem heq
        have hv : ∀ p ∈ estadoExactMap,
            pyLowerS (stripS (pyStr (some p.2))) ≠ "resuelto" := by decide
        exact iff_of_false (hv _ hm) hnots
      · next heq =>
        split
        · exact iff_of_false (by decide) hnots
        split
        · exact iff_of_false (by decide) hnots
        split
        · exact iff_of_false (by decide) hnots
        split
        · exact iff_of_false (by decide) hnots
        split
        · exact iff_of_false (by decide) hnots
        split
        · exact iff_of_false (by decide) hnots
        · next hfb =>
          refine iff_of_false ?_ hnots
          exact fallback_not_resuelto s hnot

/-- C4 (amended): the helper implementation is true exactly when the status
folds (trim, accent- and case-insensitively) into the configured resolved
set OR the resolution status matches the set after trim and lower-casing
only (no accent folding); the KPI implementation compares both fields
lower-cased only (no trimming, no accent folding).  Neither implementation
accent-folds the resolution status. -/
theorem claim_C4_resolved_predicate (estado estadoRes : Option String) :
    build_resolved_mask estado estadoRes
      = (folds_resolved_spec estado
        || decide (pyLowerS (stripS (pyStr estadoRes)) ∈ RESOLVED_STATES))
    ∧ kpi_build_resolved_mask estado estadoRes
      = (decide (pyLowerS (pyStr estado) ∈ RESOLVED_STATES)
        || decide (pyLowerS (pyStr estadoRes) ∈ RESOLVED_STATES)) := by
  constructor
  · rw [build_resolved_mask, folds_resolved_spec]
    congr 1
    exact decide_eq_decide.mpr (helper_estado_iff estado)
  · rw [kpi_build_resolved_mask, Bool.or_comm]

/-- Counterexample for C4 as stated: an accented resolution status
"Resuélto" folds (accent-insensitively) into the resolved set, so the
claimed predicate is true, but both implementations return false because
neither accent-folds the resolution-status field. -/
theorem claim_C4_counterexample :
    (folds_resolved_spec (some "Pendiente")
      || folds_resolved_spec (some "Resuélto")) = true
    ∧ build_resolved_mask (some "Pendiente") (some "Resuélto") = false
    ∧ kpi_build_resolved_mask (some "Pendiente") (some "Resuélto") = false := by
  refine ⟨by decide, by decide, by decide⟩

theorem splitAux_props : ∀ l : List Char,
    (∀ c ∈ (splitAux l).1, isWsChar c = false ∧ c ∈ l)
    ∧ (∀ w ∈ (splitAux l).2, w ≠ [] ∧ ∀ c ∈ w, isWsChar c = false ∧ c ∈ l) := by
  intro l
  induction l with
  | nil => exact ⟨fun c hc => absurd hc (List.not_mem_nil c),
      fun w hw => absurd hw (List.not_mem_nil w)⟩
  | cons a as ih =>
    obtain ⟨ih1, ih2⟩ := ih
    by_cases ha : isWsChar a
    · rw [splitAux]
      simp only [ha, if_true]
      refine ⟨fun c hc => absurd hc (List.not_mem_nil c), ?_⟩
      intro w hw
      by_cases hp : (splitAux as).1 = []
      · simp only [hp, if_pos rfl] at hw
        obtain ⟨hne, hc⟩ := ih2 w hw
        exact ⟨hne, fun c hcw => ⟨(hc c hcw).1,
          List.mem_cons_of_mem _ (hc c hcw).2⟩⟩
      · simp only [if_neg hp] at hw
        rcases List.mem_cons.mp hw with rfl | hw
        · exact ⟨hp, fun c hcw => ⟨(ih1 c hcw).1,
            List.mem_cons_of_mem _ (ih1 c hcw).2⟩⟩
        · obtain ⟨hne, hc⟩ := ih2 w hw
          exact ⟨hne, fun c hcw => ⟨(hc c hcw).1,
            List.mem_cons_of_mem _ (hc c hcw).2⟩⟩
    · rw [splitAux]
      simp only [ha, Bool.false_eq_true, if_false]
      constructor
      · intro c hc
        rcases List.mem_cons.mp hc with rfl | hc
        · exact ⟨by simpa using ha, List.mem_cons_self _ _⟩
        · exact ⟨(ih1 c hc).1, List.mem_cons_of_mem _ (ih1 c hc).2⟩
      · intro w hw
        obtain ⟨hne, hc⟩ := ih2 w hw
        exact ⟨hne, fun c hcw => ⟨(hc c hcw).1,
          List.mem_cons_of_mem _ (hc c hcw).2⟩⟩

theorem splitWs_props (l : List Char) :
    ∀ w ∈ splitWs l, w ≠ [] ∧ ∀ c ∈ w, isWsChar c = false ∧ c ∈ l := by
  intro w hw
  rw [splitWs] at hw
  obtain ⟨h1, h2⟩ := splitAux_props l
  by_cases hp : (splitAux l).1 = []
  · simp only [hp, if_pos rfl] at hw
    exact h2 w hw
  · simp only [if_neg hp] at hw
    rcases List.mem_cons.mp hw with rfl | hw
    · exact ⟨hp, h1⟩
    · exact h2 w hw

theorem splitAux_nonws_prefix :
    ∀ (w l' : List Char), (∀ c ∈ w, isWsChar c = false)
      → splitAux (w ++ l') = (w ++ (splitAux l').1, (splitAux l').2) := by
  intro w
  induction w with
  | nil => intro l' _; simp
  | cons c cs ih =>
    intro l' h
    rw [List.cons_append, splitAux]
    simp only [h c (List.mem_cons_self _ _), Bool.false_eq_true, if_false]
    rw [ih l' fun d hd => h d (List.mem_cons_of_mem _ hd)]
    simp

theorem splitWs_joinWords :
    ∀ ws : List (List Char),
      (∀ w ∈ ws, w ≠ [] ∧ ∀ c ∈ w, isWsChar c = false)
      → splitWs (joinWords ws) = ws := by
  intro ws
  induction ws with
  | nil => intro _; rfl
  | cons w ws' ih =>
    intro h
    obtain ⟨hne, hnw⟩ := h w (List.mem_cons_self _ _)
    cases ws' with
    | nil =>
      have ha : splitAux w = (w, []) := by
        have h0 := splitAux_nonws_prefix w [] hnw
        rw [List.append_nil] at h0
        rw [h0]
        simp [splitAux]
      rw [joinWords, splitWs, ha]
      simp [hne]
    | cons w2 ws2 =>
      have hrest := ih (fun u hu => h u (List.mem_cons_of_mem _ hu))
      have hsp : splitAux (' ' :: joinWords (w2 :: ws2))
          = ([], splitWs (joinWords (w2 :: ws2))) := by
        rw [splitAux]
        simp only [show isWsChar ' ' = true from by decide, if_true]
        rfl
      have ha := splitAux_nonws_prefix w (' ' :: joinWords (w2 :: ws2)) hnw
      rw [hsp] at ha
      rw [show joinWords (w :: w2 :: ws2) = w ++ ' ' :: joinWords (w2 :: ws2) from rfl,
        splitWs, ha]
      simp [hne, hrest]

theorem mem_joinWords :
    ∀ (ws : List (List Char)) (c : Char), c ∈ joinWords ws
      → (∃ w ∈ ws, c ∈ w) ∨ c = ' ' := by
  intro ws
  induction ws with
  | nil => intro c hc; exact absurd hc (List.not_mem_nil c)
  | cons w ws' ih =>
    intro c hc
    cases ws' with
    | nil =>
      rw [joinWords] at hc
      exact Or.inl ⟨w, List.mem_cons_self _ _, hc⟩
    | cons w2 ws2 =>
      rw [show joinWords (w :: w2 :: ws2) = w ++ ' ' :: joinWords (w2 :: ws2) from rfl]
        at hc
      rcases List.mem_append.mp hc with hc | hc
      · exact Or.inl ⟨w, List.mem_cons_self _ _, hc⟩
      · rcases List.mem_cons.mp hc with rfl | hc
        · exact Or.inr rfl
        · rcases ih c hc with ⟨u, hu, hcu⟩ | hsp
          · exact Or.inl ⟨u, List.mem_cons_of_mem _ hu, hcu⟩
          · exact Or.inr hsp

theorem joinWords_head_nonws (ws : List (List Char))
    (h : ∀ w ∈ ws, w ≠ [] ∧ ∀ c ∈ w, isWsChar c = false) :
    ∀ c cs, joinWords ws = c :: cs → isWsChar c = false := by
  intro c cs hj
  cases ws with
  | nil => simp [joinWords] at hj
  | cons w ws' =>
    obtain ⟨hne, hnw⟩ := h w (List.mem_cons_self _ _)
    obtain ⟨a, as, rfl⟩ : ∃ a as, w = a :: as := by
      cases hw : w with
      | nil => exact absurd hw hne
      | cons a as => exact ⟨a, as, rfl⟩
    have hca : c = a := by
      cases ws' with
      | nil =>
        rw [joinWords] at hj
        exact (((List.cons.injEq _ _ _ _).mp hj).1).symm
      | cons w2 ws2 =>
        rw [show joinWords ((a :: as) :: w2 :: ws2)
            = a :: (as ++ ' ' :: joinWords (w2 :: ws2)) from rfl] at hj
        exact (((List.cons.injEq _ _ _ _).mp hj).1).symm
    rw [hca]
    exact hnw a (List.mem_cons_self _ _)

theorem joinWords_last_nonws :
    ∀ ws : List (List Char),
      (∀ w ∈ ws, w ≠ [] ∧ ∀ c ∈ w, isWsChar c = false)
      → ws = [] ∨ ∃ t x, joinWords ws = t ++ [x] ∧ isWsChar x = false := by
  intro ws
  induction ws with
  | nil => intro _; exact Or.inl rfl
  | cons w ws' ih =>
    intro h
    right
    obtain ⟨hne, hnw⟩ := h w (List.mem_cons_self _ _)
    cases ws' with
    | nil =>
      obtain ⟨t, x, htx⟩ : ∃ t x, w = t ++ [x] := by
        cases hr : w.reverse with
        | nil => rw [← List.reverse_reverse w, hr] at hne; exact absurd rfl hne
        | cons x rt =>
          refine ⟨rt.reverse, x, ?_⟩
          have := congrArg List.reverse hr
          simpa using this
      refine ⟨t, x, by rw [joinWords, htx], ?_⟩
      apply hnw
      rw [htx]
      simp
    | cons w2 ws2 =>
      rcases ih (fun u hu => h u (List.mem_cons_of_mem _ hu)) with he | ⟨t, x, htx, hx⟩
      · simp at he
      · refine ⟨w ++ ' ' :: t, x, ?_, hx⟩
        rw [show joinWords (w :: w2 :: ws2) = w ++ ' ' :: joinWords (w2 :: ws2) from rfl,
          htx]
        simp

theorem alnum_not_combining (c : Char) (h : c.isAlphanum = true) :
    combiningChar c = false := by
  unfold combiningChar
  rw [decide_eq_false_iff_not]
  intro hmem
  have hall : ∀ m ∈ combiningMarks, m.isAlphanum = false := by decide
  rw [hall c hmem] at h
  exact Bool.false_ne_true h

theorem stab_char (e c : Char) (hc : c ∈ nfkdChar (pyLowerChar e))
    (han : c.isAlphanum = true) :
    pyLowerChar c = c ∧ nfkdChar c = [c] ∧ combiningChar c = false := by
  unfold nfkdChar at hc
  cases hn : alookup nfkdTable (pyLowerChar e) with
  | none =>
    rw [hn] at hc
    simp only [Option.getD_none, List.mem_singleton] at hc
    subst hc
    refine ⟨lower_idem e, ?_, alnum_not_combining _ han⟩
    unfold nfkdChar
    rw [hn]
    rfl
  | some v =>
    rw [hn] at hc
    simp only [Option.getD_some] at hc
    have hmem := alookup_mem hn
    cases hl : alookup lowerTable e with
    | none =>
      have hpe : pyLowerChar e = e := by unfold pyLowerChar; rw [hl]; rfl
      rw [hpe] at hmem
      have key : ∀ p ∈ nfkdTable, alookup lowerTable p.1 = none →
          ∀ d ∈ p.2, d.isAlphanum = true →
          pyLowerChar d = d ∧ nfkdChar d = [d] ∧ combiningChar d = false := by decide
      exact key (e, v) hmem (hpe ▸ hl) c hc han
    | some w =>
      have hpe : pyLowerChar e = w := by unfold pyLowerChar; rw [hl]; rfl
      rw [hpe] at hmem
      have hlw := alookup_mem hl
      have key2 : ∀ q ∈ lowerTable, ∀ p ∈ nfkdTable, p.1 = q.2 →
          ∀ d ∈ p.2, d.isAlphanum = true →
          pyLowerChar d = d ∧ nfkdChar d = [d] ∧ combiningChar d = false := by decide
      exact key2 (e, w) hlw (w, v) hmem rfl c hc han

theorem replacePair_id_of_not_mem (a b rep : Char) :
    ∀ l : List Char, a ∉ l → replacePair a b rep l = l := by
  intro l
  induction l using replacePair.induct a b rep with
  | case1 => intro _; rfl
  | case2 c => intro _; rfl
  | case3 c d rest hm ih =>
    intro h
    rw [hm.1] at h
    exact absurd (List.mem_cons_self _ _) h
  | case4 c d rest hm ih =>
    intro h
    rw [replacePair, if_neg hm]
    rw [ih fun hd => h (List.mem_cons_of_mem _ hd)]

theorem foldl_replace_id :
    ∀ (steps : List (Char × Char × Char)) (l : List Char),
      (∀ s ∈ steps, s.1 ∉ l)
      → steps.foldl (fun acc s => replacePair s.1 s.2.1 s.2.2 acc) l = l := by
  intro steps
  induction steps with
  | nil => intro l _; rfl
  | cons st sts ih =>
    intro l h
    rw [List.foldl_cons, replacePair_id_of_not_mem st.1 st.2.1 st.2.2 l
      (h st (List.mem_cons_self _ _))]
    exact ih l fun s hs => h s (List.mem_cons_of_mem _ hs)

theorem fixList_id_of_no_atilde (l : List Char) (h : 'Ã' ∉ l) : fixList l = l := by
  rw [fixList]
  apply foldl_replace_id
  intro s hs
  have hall : ∀ s ∈ fixSteps, s.1 = 'Ã' := by decide
  rw [hall s hs]
  exact h

theorem last_unique (l t t' : List Char) (x x' : Char)
    (h : l = t ++ [x]) (h' : l = t' ++ [x']) : x = x' := by
  have hr := congrArg List.reverse (h.symm.trans h')
  simp only [List.reverse_append, List.reverse_singleton, List.singleton_append] at hr
  exact ((List.cons.injEq _ _ _ _).mp hr).1

theorem map_id_of_mem (f : Char → Char) :
    ∀ l : List Char, (∀ c ∈ l, f c = c) → l.map f = l := by
  intro l
  induction l with
  | nil => intro _; rfl
  | cons c cs ih =>
    intro h
    rw [List.map_cons, h c (List.mem_cons_self _ _),
      ih fun d hd => h d (List.mem_cons_of_mem _ hd)]

theorem flatMap_id_of_mem (f : Char → List Char) :
    ∀ l : List Char, (∀ c ∈ l, f c = [c]) → l.flatMap f = l := by
  intro l
  induction l with
  | nil => intro _; rfl
  | cons c cs ih =>
    intro h
    rw [List.flatMap_cons, h c (List.mem_cons_self _ _),
      ih fun d hd => h d (List.mem_cons_of_mem _ hd)]
    rfl

theorem filterMap_id_of_mem (f : Char → Option Char) :
    ∀ l : List Char, (∀ c ∈ l, f c = some c) → l.filterMap f = l := by
  intro l
  induction l with
  | nil => intro _; rfl
  | cons c cs ih =>
    intro h
    rw [List.filterMap_cons, h c (List.mem_cons_self _ _)]
    exact congrArg (c :: ·) (ih fun d hd => h d (List.mem_cons_of_mem _ hd))

theorem joined_strip_id (ws : List (List Char))
    (h : ∀ w ∈ ws, w ≠ [] ∧ ∀ c ∈ w, isWsChar c = false) :
    stripList (joinWords ws) = joinWords ws := by
  apply strip_id_of_ends
  · exact joinWords_head_nonws ws h
  · intro t x hx
    rcases joinWords_last_nonws ws h with hnil | ⟨t2, x2, h2, hx2⟩
    · rw [hnil] at hx
      exact absurd hx (by simp [joinWords])
    · rw [last_unique (joinWords ws) t t2 x x2 hx h2]
      exact hx2

theorem ncn_char_props (l : List Char) :
    ∀ c ∈ ncnList l, c = ' ' ∨ (c.isAlphanum = true ∧ isWsChar c = false
      ∧ pyLowerChar c = c ∧ nfkdChar c = [c] ∧ combiningChar c = false) := by
  intro c hc
  unfold ncnList at hc
  rcases mem_joinWords _ c hc with ⟨w, hw, hcw⟩ | hsp
  · obtain ⟨hcns, hcl4⟩ := (splitWs_props _ w hw).2 c hcw
    right
    unfold ncnCore at hcl4
    rcases List.mem_filterMap.mp hcl4 with ⟨d, hd, hcd⟩
    unfold cleanChar at hcd
    split at hcd
    · exact Option.noConfusion hcd
    · split at hcd
      next halnum =>
        obtain rfl : d = c := (Option.some.injEq _ _).mp hcd
        rcases List.mem_flatMap.mp hd with ⟨e, he, hde⟩
        rcases List.mem_map.mp he with ⟨e0, he0, rfl⟩
        obtain ⟨h1, h2, h3⟩ := stab_char e0 d hde halnum
        exact ⟨halnum, hcns, h1, h2, h3⟩
      next halnum =>
        obtain rfl : ' ' = c := (Option.some.injEq _ _).mp hcd
        exact absurd hcns (by decide)
  · exact Or.inl hsp

theorem ncnList_eq (m : List Char) :
    ncnList m = joinWords (splitWs (ncnCore m)) := by
  unfold ncnList
  exact rfl

theorem ncnList_idem (l : List Char) : ncnList (ncnList l) = ncnList l := by
  have hchar := ncn_char_props l
  have hws : ∀ w ∈ splitWs (ncnCore l), w ≠ [] ∧ ∀ c ∈ w, isWsChar c = false :=
    fun w hw => ⟨(splitWs_props (ncnCore l) w hw).1,
      fun c hc => ((splitWs_props (ncnCore l) w hw).2 c hc).1⟩
  have hfix : fixList (ncnList l) = ncnList l := by
    apply fixList_id_of_no_atilde
    intro hmem
    rcases hchar _ hmem with h | ⟨h, -⟩
    · exact absurd h (by decide)
    · exact absurd h (by decide)
  have hstrip : stripList (ncnList l) = ncnList l := by
    rw [ncnList_eq l]
    exact joined_strip_id _ hws
  have hlower : (ncnList l).map pyLowerChar = ncnList l := by
    apply map_id_of_mem
    intro c hc
    rcases hchar c hc with rfl | ⟨-, -, h, -, -⟩
    · decide
    · exact h
  have hnfkd : (ncnList l).flatMap nfkdChar = ncnList l := by
    apply flatMap_id_of_mem
    intro c hc
    rcases hchar c hc with rfl | ⟨-, -, -, h, -⟩
    · decide
    · exact h
  have hclean : (ncnList l).filterMap cleanChar = ncnList l := by
    apply filterMap_id_of_mem
    intro c hc
    rcases hchar c hc with rfl | ⟨han, -, -, -, hcomb⟩
    · decide
    · simp [cleanChar, hcomb, han]
  have hcore : ncnCore (ncnList l) = ncnList l := by
    unfold ncnCore
    rw [hfix, hstrip, hlower, hnfkd, hclean]
  rw [ncnList_eq (ncnList l), hcore, ncnList_eq l,
    splitWs_joinWords _ hws]

theorem string_data_mk (l : List Char) : (String.mk l).data = l := rfl

theorem normalize_column_name_idem (s : String) :
    normalize_column_name (normalize_column_name s) = normalize_column_name s := by
  unfold normalize_column_name
  rw [string_data_mk, ncnList_idem]

/-- C6 (amended): `normalize_column_name` is idempotent, and every canonical
output value of the status, resolution-status and priority normalizers is a
fixed point of its normalizer, except the null-placeholder
"Sin estado de resolución", which the resolution normalizer title-cases to
"Sin Estado De Resolución" (itself a fixed point). -/
theorem claim_C6_canonical_idempotence :
    (∀ s : String,
      normalize_column_name (normalize_column_name s) = normalize_column_name s)
    ∧ (normalize_estado_for_display (some "Resuelto") = some "Resuelto"
      ∧ normalize_estado_for_display (some "Pendiente") = some "Pendiente"
      ∧ normalize_estado_for_display (some "Abierto") = some "Abierto"
      ∧ normalize_estado_for_display (some "Nuevo") = some "Nuevo"
      ∧ normalize_estado_for_display (some "En progreso") = some "En progreso"
      ∧ normalize_estado_for_display (some "En espera") = some "En espera"
      ∧ normalize_estado_for_display (some "Cancelado") = some "Cancelado"
      ∧ normalize_estado_for_display (some "Reabierto") = some "Reabierto")
    ∧ (normalize_resolution_status_for_display (some "Cumplido") = "Cumplido"
      ∧ normalize_resolution_status_for_display (some "Incumplido") = "Incumplido"
      ∧ normalize_resolution_status_for_display (some "Resuelto") = "Resuelto"
      ∧ normalize_resolution_status_for_display (some "Sin estado de resolución")
          = "Sin Estado De Resolución"
      ∧ normalize_resolution_status_for_display (some "Sin Estado De Resolución")
          = "Sin Estado De Resolución")
    ∧ (normalize_priority_labels (some "Urgente") = "Urgente"
      ∧ normalize_priority_labels (some "Alta") = "Alta"
      ∧ normalize_priority_labels (some "Media") = "Media"
      ∧ normalize_priority_labels (some "Baja") = "Baja"
      ∧ normalize_priority_labels (some "Sin criticidad") = "Sin criticidad") := by
  exact ⟨normalize_column_name_idem,
    ⟨by decide, by decide, by decide, by decide, by decide, by decide, by decide,
      by decide⟩,
    ⟨by decide, by decide, by decide, by decide, by decide⟩,
    ⟨by decide, by decide, by decide, by decide, by decide⟩⟩

/-- C6 counterexample: "Sin estado de resolución" is a canonical output of
the resolution-status normalizer (it is the label assigned to null and blank
inputs), yet the normalizer does not return it unchanged: its title-cased
fallback yields "Sin Estado De Resolución". -/
theorem claim_C6_counterexample :
    normalize_resolution_status_for_display (some "Sin estado de resolución")
      = "Sin Estado De Resolución"
    ∧ "Sin Estado De Resolución" ≠ "Sin estado de resolución" := by
  exact ⟨by decide, by decide⟩
